import Mathlib

/-!
Verification of the hierarchical variable resolution engine of the
`templater` repository (`main.py`), against its natural-language
specification.

The embedding is shallow: Python's YAML values become the inductive type
`Val`; Python `dict`s become association lists over `String` keys kept in
insertion order (a Python `dict` preserves insertion order, assignment to
an existing key keeps its position, and keys are unique); mutation is
modelled by explicit state passing; `exit()` inside the merge (and any
uncaught exception that would terminate the process) is modelled as
`Except.error ()`; `copy.deepcopy` is the identity on pure values.

Non-string mapping keys are outside the spec's data model ("mapping from
string keys") and are not modelled.  Python's cross-type `==` corner cases
(`True == 1`) are likewise outside the modelled value universe.
-/

/-- Value universe of the engine: YAML scalars, sequences and mappings
(`VariableMapping` of the spec).  A mapping is an ordered association list,
mirroring a Python `dict`. -/
inductive Val where
  | vnull
  | vbool (b : Bool)
  | vint (n : Int)
  | vstr (s : String)
  | vlist (xs : List Val)
  | vdict (es : List (String × Val))

mutual
/-- Structural (Python `==`) equality on values, executable. -/
def veq : Val → Val → Bool
  | Val.vnull, Val.vnull => true
  | Val.vbool a, Val.vbool b => a = b
  | Val.vint a, Val.vint b => a = b
  | Val.vstr a, Val.vstr b => a = b
  | Val.vlist a, Val.vlist b => vleq a b
  | Val.vdict a, Val.vdict b => veeq a b
  | _, _ => false

/-- Pointwise equality on value sequences. -/
def vleq : List Val → List Val → Bool
  | [], [] => true
  | a :: as', b :: bs' => veq a b && vleq as' bs'
  | _, _ => false

/-- Pointwise equality on mapping entries. -/
def veeq : List (String × Val) → List (String × Val) → Bool
  | [], [] => true
  | (k, v) :: as', (k', v') :: bs' => k = k' && veq v v' && veeq as' bs'
  | _, _ => false
end

mutual
theorem veq_iff : ∀ a b : Val, veq a b = true ↔ a = b
  | Val.vnull, b => by cases b <;> simp [veq]
  | Val.vbool x, b => by cases b <;> simp [veq]
  | Val.vint x, b => by cases b <;> simp [veq]
  | Val.vstr x, b => by cases b <;> simp [veq]
  | Val.vlist xs, b => by
      cases b <;> simp [veq]
      exact vleq_iff xs _
  | Val.vdict es, b => by
      cases b <;> simp [veq]
      exact veeq_iff es _

theorem vleq_iff : ∀ a b : List Val, vleq a b = true ↔ a = b
  | [], b => by cases b <;> simp [vleq]
  | x :: xs, b => by
      cases b with
      | nil => simp [vleq]
      | cons y ys => simp [vleq, veq_iff x y, vleq_iff xs ys]

theorem veeq_iff : ∀ a b : List (String × Val), veeq a b = true ↔ a = b
  | [], b => by cases b <;> simp [veeq]
  | (k, v) :: xs, b => by
      cases b with
      | nil => simp [veeq]
      | cons y ys =>
          obtain ⟨k', v'⟩ := y
          simp [veeq, veq_iff v v', veeq_iff xs ys]
end

instance : DecidableEq Val := fun a b => decidable_of_iff _ (veq_iff a b)

instance {ε α : Type} [DecidableEq ε] [DecidableEq α] : DecidableEq (Except ε α) :=
  fun a b =>
  match a, b with
  | .ok x, .ok y => decidable_of_iff (x = y) (by simp)
  | .error x, .error y => decidable_of_iff (x = y) (by simp)
  | .ok _, .error _ => Decidable.isFalse (by simp)
  | .error _, .ok _ => Decidable.isFalse (by simp)

/-- Python `d.get(k)` / `d[k]` on an association list: first matching entry. -/
def dget : List (String × Val) → String → Option Val
  | [], _ => none
  | (k', v') :: tl, k => if k' = k then some v' else dget tl k

/-- Python `d[k] = v`: replace the value of an existing key in place
(keeping its position), else append the new entry at the end. -/
def dset : List (String × Val) → String → Val → List (String × Val)
  | [], k, v => [(k, v)]
  | (k', v') :: tl, k, v => if k' = k then (k, v) :: tl else (k', v') :: dset tl k v

/-- Python `del d[k]` / `d.pop(k, None)`: drop the (unique) entry for `k`. -/
def ddel : List (String × Val) → String → List (String × Val)
  | [], _ => []
  | (k', v') :: tl, k => if k' = k then tl else (k', v') :: ddel tl k

/-- Top-level key list of a mapping. -/
def topKeys (es : List (String × Val)) : List String := es.map Prod.fst

/-- Python `s.endswith(suf)`: the last `len(suf)` characters equal `suf`. -/
def strEndsWith (s suf : String) : Bool :=
  decide (s.data.drop (s.data.length - suf.data.length) = suf.data)

/-- Python `s.startswith(pre)`. -/
def strStartsWith (s other : String) : Bool :=
  decide (s.data.take other.data.length = other.data)

/-- Python `key.removesuffix(x)` for the 8-character suffixes `"__remove"`
and `"__append"`; only applied after an `endswith` check in the source. -/
def strip8 (s : String) : String := ⟨s.data.take (s.data.length - 8)⟩

/-- Python `s.split(sep)` for a single-character separator: keeps empty
pieces, never returns an empty list. -/
def splitOnChar (c : Char) : List Char → List (List Char)
  | [] => [[]]
  | x :: rest =>
      if x = c then [] :: splitOnChar c rest
      else
        match splitOnChar c rest with
        | s :: ss => (x :: s) :: ss
        | [] => [[x]]

/-- Python `s.split(".")` on a string, producing strings. -/
def splitDot (s : String) : List String := (splitOnChar '.' s.data).map String.mk

/-- Python truthiness (`bool(v)`) on the modelled values. -/
def truthy : Val → Bool
  | Val.vnull => false
  | Val.vbool b => b
  | Val.vint n => decide (n ≠ 0)
  | Val.vstr s => !s.data.isEmpty
  | Val.vlist xs => !xs.isEmpty
  | Val.vdict es => !es.isEmpty

/-- Python `val is False`. -/
def pyFalse : Val → Bool
  | Val.vbool false => true
  | _ => false

/-- Test for a sequence value (`isinstance(val, list)`). -/
def isListV : Val → Bool
  | Val.vlist _ => true
  | _ => false

/-- Source `delete_keys_with_dot_notation` (main.py:222), one dotted key:
walk the mapping part by part; an intermediate part must resolve to a
present key whose value is again a mapping, otherwise the loop breaks and
nothing is deleted; at the last part the key is deleted. -/
def delete_keys_dotted (es : List (String × Val)) : List String → List (String × Val)
  | [] => es
  | [p] => ddel es p
  | p :: q :: rest =>
      match dget es p with
      | some (Val.vdict sub) => dset es p (Val.vdict (delete_keys_dotted sub (q :: rest)))
      | _ => es

/-- The `for dotted_key in delete_keys` iteration of the source
(main.py:230): iterating a list requires every element to be a string
(otherwise `dotted_key.split(".")` raises and the process dies, modelled
as `Except.error ()`); iterating a string visits its characters; iterating
a mapping visits its keys; any other truthy value is not iterable and the
process dies.  Falsy values are filtered out by `if delete_keys:` before
this point, giving the empty iteration. -/
def deleteSpecs (dv : Val) : Except Unit (List (List String)) :=
  if truthy dv = false then .ok []
  else
    match dv with
    | Val.vlist xs =>
        xs.mapM (fun x =>
          match x with
          | Val.vstr s => .ok ((splitOnChar '.' s.data).map String.mk)
          | _ => .error ())
    | Val.vstr s => .ok (s.data.map (fun c => (splitOnChar '.' [c]).map String.mk))
    | Val.vdict des => .ok (des.map (fun e => (splitOnChar '.' e.1.data).map String.mk))
    | _ => .error ()

/-- Step "delete nested keys" of `merge_dicts_deep` (main.py:184-187):
`delete_keys = override.get("__delete_keys__", [])` followed by the dotted
deletions when the value is truthy. -/
def applyDeleteStep (res oes : List (String × Val)) : Except Unit (List (String × Val)) :=
  match dget oes "__delete_keys__" with
  | none => .ok res
  | some dv =>
      match deleteSpecs dv with
      | .error e => .error e
      | .ok specs => .ok (specs.foldl (fun r parts => delete_keys_dotted r parts) res)

/-- Effect of one `__remove` directive (body of the loop of the source's
`handle_remove_keys`, main.py:254-264): value `True` removes the stripped
base key; a list value subtracts its elements from the base list (when
both are lists); anything else is a no-op. -/
def remove_one (target : List (String × Val)) (k : String) (v : Val) : List (String × Val) :=
  let bk := strip8 k
  match v with
  | Val.vbool true => ddel target bk
  | Val.vlist items =>
      match dget target bk with
      | some (Val.vlist bl) =>
          dset target bk (Val.vlist (bl.filter (fun x => !(decide (x ∈ items)))))
      | _ => target
  | _ => target

/-- Source `handle_remove_keys` (main.py:243): apply `remove_one` for each
override key ending in `__remove`, in order. -/
def handle_remove_keys (target : List (String × Val)) : List (String × Val) → List (String × Val)
  | [] => target
  | (k, v) :: rest =>
      handle_remove_keys (if strEndsWith k "__remove" then remove_one target k v else target) rest

/-- Effect of one well-typed `__append` directive (body of the loop of the
source's `handle_append_keys`, main.py:279-300, after the list check on the
directive's value): a missing base key is created from a copy of the list;
a list base key is extended; a non-list base key is fatal (`exit()`). -/
def append_one (target : List (String × Val)) (k : String) (items : List Val) :
    Except Unit (List (String × Val)) :=
  let bk := strip8 k
  match dget target bk with
  | none => .ok (dset target bk (Val.vlist items))
  | some (Val.vlist bl) => .ok (dset target bk (Val.vlist (bl ++ items)))
  | some _ => .error ()

/-- Source `handle_append_keys` (main.py:267): for each override key ending
in `__append`, a non-list directive value is fatal (`exit()`), otherwise
`append_one` runs; a fatal error short-circuits the loop (the process
dies). -/
def handle_append_keys (target : List (String × Val)) : List (String × Val) → Except Unit (List (String × Val))
  | [] => .ok target
  | (k, v) :: rest =>
      if strEndsWith k "__append" then
        match v with
        | Val.vlist items =>
            match append_one target k items with
            | .error e => .error e
            | .ok t' => handle_append_keys t' rest
        | _ => .error ()
      else handle_append_keys target rest

/-- Source `remove_false_values` (main.py:303): drop every key whose
override value is exactly `False`. -/
def remove_false_values (target : List (String × Val)) : List (String × Val) → List (String × Val)
  | [] => target
  | (k, v) :: rest =>
      remove_false_values (if pyFalse v then ddel target k else target) rest

mutual
/-- Source `merge_dicts_deep` (main.py:158): non-mappings are replaced
wholesale; otherwise the base is copied and the directive steps run in the
source's order — dotted deletion, `__remove`, `__append` (fatal on
malformation), removal of `False`-valued keys — followed by the generic
key-by-key merge loop. -/
def merge_dicts_deep : Val → Val → Except Unit Val
  | Val.vdict bes, Val.vdict oes =>
      match applyDeleteStep bes oes with
      | .error e => .error e
      | .ok r1 =>
          let r2 := handle_remove_keys r1 oes
          match handle_append_keys r2 oes with
          | .error e => .error e
          | .ok r3 =>
              let r4 := remove_false_values r3 oes
              match mergeLoop r4 oes with
              | .error e => .error e
              | .ok r5 => .ok (Val.vdict r5)
  | _, ov => .ok ov
termination_by _ ov => sizeOf ov

/-- The final `for key, val in override.items()` loop of `merge_dicts_deep`
(main.py:197-217): directive keys and `False` values were consumed above;
when both the current base value and the override value are mappings they
merge recursively; everything else (lists included) is replaced by a copy
of the override value. -/
def mergeLoop : List (String × Val) → List (String × Val) → Except Unit (List (String × Val))
  | res, [] => .ok res
  | res, (k, v) :: rest =>
      if (k == "__delete_keys__") || strEndsWith k "__remove" || strEndsWith k "__append" || pyFalse v then
        mergeLoop res rest
      else
        match dget res k with
        | some (Val.vdict bsub) =>
            match v with
            | Val.vdict osub =>
                match merge_dicts_deep (Val.vdict bsub) (Val.vdict osub) with
                | .error e => .error e
                | .ok m => mergeLoop (dset res k m) rest
            | _ => mergeLoop (dset res k v) rest
        | _ => mergeLoop (dset res k v) rest
termination_by _ oes => sizeOf oes
end

/-- Configuration surface consumed by the modelled components, mirroring
the defaults of `config.py` (`Config.vars_filename`,
`Config.config_filename`, `Config.skip_prefix`,
`Config.filename_variable`). -/
structure Config where
  vars_filename : String
  config_filename : String
  skipPref : Option String
  filename_variable : Option String

/-- Defaults from `config.py`. -/
def defaultConfig : Config := ⟨"vars.yaml", "my_config.yaml", none, none⟩

/-- Replace every backslash by a slash (`p.replace("\\", "/")`, a
single-character textual replacement). -/
def replaceBS (l : List Char) : List Char :=
  l.map (fun c => if c = '\\' then '/' else c)

/-- POSIX `os.path.dirname`: everything up to the last slash, with
trailing slashes stripped unless the head consists of slashes only. -/
def dirnameCore (l : List Char) : List Char :=
  let head := (l.reverse.dropWhile (fun c => !(c == '/'))).reverse
  if head.all (fun c => c == '/') then head
  else (head.reverse.dropWhile (fun c => c == '/')).reverse

/-- String-level `os.path.dirname`. -/
def posixDirname (p : String) : String := ⟨dirnameCore p.data⟩

/-- Source `get_target_type` (main.py:316):
`yaml_path.replace("\\", "/").split("/")[0]`. -/
def get_target_type (yaml_path : String) : String :=
  ⟨(splitOnChar '/' (replaceBS yaml_path.data)).headD []⟩

/-- The `os.path.dirname(yaml_path).replace("\\", "/").split("/")` of
`load_vars_hierarchy` (main.py:355). -/
def path_parts (p : String) : List String :=
  (splitOnChar '/' (replaceBS (posixDirname p).data)).map String.mk

/-- Character lists joined by a `/` separator. -/
def joinSlash : List (List Char) → List Char
  | [] => []
  | [d] => d
  | d :: d2 :: rest => d ++ '/' :: joinSlash (d2 :: rest)

/-- Model of `os.path.join` over the relative, slash-free components it is
given in `load_vars_hierarchy` (empty components contribute nothing; the
last component — the variables filename — is never empty): the non-empty
components joined by `/`. -/
def ospJoin (segs : List String) : String :=
  ⟨joinSlash ((segs.map String.data).filter (fun s => !s.isEmpty))⟩

/-- Candidate paths of `load_vars_hierarchy` (main.py:353-364), taken
relative to `Config.input_dir` (the source prefixes every candidate with
the same input directory before consulting the file system, so the store
is keyed by relative paths here): the variables filename joined under the
first `i` of the split directory parts for each `i`, followed by the
target path itself. -/
def buildCandidates (cfg : Config) (p : String) : List String :=
  ((List.range ((path_parts p).length + 1)).map
      (fun i => ospJoin ((path_parts p).take i ++ [cfg.vars_filename]))) ++ [p]

/-- Outcome of consulting the backing store for one candidate path:
missing file, content whose parse raises `yaml.scanner.ScannerError` (the
only exception the source catches at main.py:375), content whose parse
raises any other exception (uncaught, so the process dies), or content
that parses to a value. -/
inductive FileState where
  | absent
  | scanError
  | parseOtherError
  | parsed (v : Val)

/-- The candidate loop of `load_vars_hierarchy` (main.py:368-382): skip
missing files; a scanner error logs and returns `None` (modelled
`.ok none`); any other parse exception kills the process (`.error ()`);
otherwise `yaml.safe_load(file) or {}` replaces falsy content by the
empty mapping and the result is merged into the accumulator (a fatal
merge, i.e. `exit()`, is `.error ()`). -/
def loadFold (fs : String → FileState) : Val → List String → Except Unit (Option Val)
  | acc, [] => .ok (some acc)
  | acc, path :: rest =>
      match fs path with
      | .absent => loadFold fs acc rest
      | .scanError => .ok none
      | .parseOtherError => .error ()
      | .parsed v =>
          let data := if truthy v then v else Val.vdict []
          match merge_dicts_deep acc data with
          | .error e => .error e
          | .ok acc' => loadFold fs acc' rest

/-- Python `Path(yaml_path).stem` on the final path component `name`: the
name without its suffix, where the suffix starts at the last dot only if
that dot is neither the first nor the last character of the name. -/
def stemCore (name : List Char) : List Char :=
  let ext := (name.reverse.takeWhile (fun c => !(c == '.')))
  if ext.length = name.length then name
  else
    let i := name.length - ext.length - 1
    if 0 < i ∧ i < name.length - 1 then name.take i else name

/-- Python `Path(p).stem`: stem of the component after the last slash. -/
def pathStem (p : String) : String :=
  ⟨stemCore ((p.data.reverse.takeWhile (fun c => !(c == '/'))).reverse)⟩

/-- Inner `set_if_missing` of `set_var_from_filename` (main.py:418):
returns the updated mapping and whether a new value was set.  At a final
path part, an absent key is set; an intermediate part uses
`data.setdefault(key, {})` (inserting an empty mapping when absent) and
gives up when the existing value is not a mapping. -/
def set_if_missing : List (String × Val) → List String → String → (List (String × Val) × Bool)
  | es, [], _ => (es, false)
  | es, [k], value =>
      if (dget es k).isSome then (es, false) else (dset es k (Val.vstr value), true)
  | es, k :: k2 :: rest, value =>
      match dget es k with
      | none =>
          let r := set_if_missing [] (k2 :: rest) value
          (dset es k (Val.vdict r.1), r.2)
      | some (Val.vdict sub) =>
          let r := set_if_missing sub (k2 :: rest) value
          (dset es k (Val.vdict r.1), r.2)
      | some _ => (es, false)

/-- Source `set_var_from_filename` (main.py:400) restricted to its effect
on the data (the source's return value is only logged). -/
def set_var_from_filename (data : Val) (yaml_path : String) (var : String) : Val :=
  match data with
  | Val.vdict es => Val.vdict (set_if_missing es (splitDot var) (pathStem yaml_path)).1
  | v => v

/-- Source `load_vars_hierarchy` (main.py:332): fold the existing
candidates through the merge, then write `target_type` (a plain `dict`
item assignment — on a non-mapping accumulator this raises and the
process dies), then optionally derive the configured filename variable. -/
def load_vars_hierarchy (cfg : Config) (fs : String → FileState) (p : String) :
    Except Unit (Option Val) :=
  match loadFold fs (Val.vdict []) (buildCandidates cfg p) with
  | .error e => .error e
  | .ok none => .ok none
  | .ok (some acc) =>
      match acc with
      | Val.vdict es =>
          let withTT := Val.vdict (dset es "target_type" (Val.vstr (get_target_type p)))
          match cfg.filename_variable with
          | none => .ok (some withTT)
          | some var => .ok (some (set_var_from_filename withTT p var))
      | _ => .error ()

/-- The per-target loop of `main` (main.py:19-23) observed at resolution
level: `generate_and_save` returns early (skipping the target) when
`load_vars_hierarchy` returns `None`, and the walk continues; a fatal
merge error or uncaught exception terminates the whole run.  Template
lookup, rendering and persistence are external collaborators (spec section 1)
and do not affect this outcome. -/
def process_targets (cfg : Config) (fs : String → FileState) :
    List String → Except Unit (List (Option Val))
  | [] => .ok []
  | t :: ts =>
      match load_vars_hierarchy cfg fs t with
      | .error e => .error e
      | .ok o =>
          match process_targets cfg fs ts with
          | .error e => .error e
          | .ok os => .ok (o :: os)

/-- Store of the end-to-end scenario of the spec: `root/vars.yaml`,
`root/ios/vars.yaml`, `root/ios/r1.yaml`. -/
def exampleFS : String → FileState := fun p =>
  if p = "vars.yaml" then .parsed (Val.vdict [("mtu", Val.vint 1500)])
  else if p = "ios/vars.yaml" then .parsed (Val.vdict [("vendor", Val.vstr "cisco")])
  else if p = "ios/r1.yaml" then .parsed (Val.vdict [("hostname", Val.vstr "r1")])
  else .absent

/-- Store exposing the root-level duplication: the root variables file
holds a single `__append` directive, and a root-level target exists. -/
def fsDouble : String → FileState := fun p =>
  if p = "vars.yaml" then .parsed (Val.vdict [("a__append", Val.vlist [Val.vint 1])])
  else if p = "r1.yaml" then .parsed (Val.vdict [])
  else .absent

/-- Directory tree backing `os.walk`: files of a directory and its named
subdirectories, in scan order. -/
inductive FTree where
  | node (files : List String) (subdirs : List (String × FTree))

mutual
/-- Model of top-down `os.walk` observed as (directory basename,
path components below the walk root, filenames): the root entry first,
then the entries of each subdirectory in order.  A skipped directory's
subtree is still walked — the source's `continue` only drops the files of
that one directory. -/
def walkEntries (rootName : String) : FTree → List (String × List String × List String)
  | FTree.node files subs => (rootName, [], files) :: walkForest subs

/-- Walk a list of named subtrees, prefixing each subtree's entries with
its directory name. -/
def walkForest : List (String × FTree) → List (String × List String × List String)
  | [] => []
  | (nm, sub) :: rest =>
      (walkEntries nm sub).map (fun e => (e.1, nm :: e.2.1, e.2.2)) ++ walkForest rest
end

/-- Source `path_should_be_skipped` (main.py:26): with no configured
prefix nothing is skipped, else a `startswith` test. -/
def path_should_be_skipped (cfg : Config) (path : String) : Bool :=
  match cfg.skipPref with
  | none => false
  | some pre => strStartsWith path pre

/-- Source `find_target_yaml_files` (main.py:35), observed as the selected
(path components below root, filename) pairs — the source yields
`os.path.join(dirpath, file)` for exactly these pairs.  Per walk entry:
skip every file when the directory's basename is skipped (the root's own
basename included); otherwise keep files that are not skipped, end in
`.yaml`, and are neither the variables filename nor the config
filename. -/
def find_target_yaml_files (cfg : Config) (rootName : String) (t : FTree) :
    List (List String × String) :=
  (walkEntries rootName t).flatMap (fun e =>
    if path_should_be_skipped cfg e.1 then []
    else
      e.2.2.filterMap (fun f =>
        if path_should_be_skipped cfg f then none
        else if !(strEndsWith f ".yaml") then none
        else if f == cfg.vars_filename || f == cfg.config_filename then none
        else some (e.2.1, f)))

/-- Selection predicate written from claim C7's words: extension `.yaml`
or `.yml`, name neither the variables filename nor the override-config
filename, and no path component below the root (each directory name and
the file name, the root itself excluded) starts with the skip prefix. -/
def claimSelected (cfg : Config) (rootName : String) (t : FTree) :
    List (List String × String) :=
  (walkEntries rootName t).flatMap (fun e =>
    e.2.2.filterMap (fun f =>
      if (strEndsWith f ".yaml" || strEndsWith f ".yml")
          && !(f == cfg.vars_filename || f == cfg.config_filename)
          && e.2.1.all (fun c => !path_should_be_skipped cfg c)
          && !path_should_be_skipped cfg f
      then some (e.2.1, f) else none))

/-- Selection predicate of the amended claim C7: extension `.yaml` only,
name neither configured filename, file not skip-prefixed, and the file's
immediate directory basename — the root's own name for root-level files —
not skip-prefixed; deeper ancestors are not checked. -/
def amendedSelected (cfg : Config) (rootName : String) (t : FTree) :
    List (List String × String) :=
  (walkEntries rootName t).flatMap (fun e =>
    e.2.2.filterMap (fun f =>
      if !path_should_be_skipped cfg (e.2.1.getLastD rootName)
          && !path_should_be_skipped cfg f
          && strEndsWith f ".yaml"
          && !(f == cfg.vars_filename || f == cfg.config_filename)
      then some (e.2.1, f) else none))

/-- Directive-key test of the spec's data model: `__delete_keys__`, a
`*__remove` key, or a `*__append` key. -/
def isDirective (k : String) : Bool :=
  (k == "__delete_keys__") || strEndsWith k "__remove" || strEndsWith k "__append"

mutual
/-- Whether a value contains a directive key at any nesting depth. -/
def hasDirectiveKey : Val → Bool
  | Val.vdict es => hasDirectiveEntries es
  | Val.vlist xs => hasDirectiveList xs
  | _ => false

/-- Directive search over mapping entries. -/
def hasDirectiveEntries : List (String × Val) → Bool
  | [] => false
  | (k, v) :: tl => isDirective k || hasDirectiveKey v || hasDirectiveEntries tl

/-- Directive search over sequence elements. -/
def hasDirectiveList : List Val → Bool
  | [] => false
  | v :: tl => hasDirectiveKey v || hasDirectiveList tl
end

/-- Uniqueness of top-level keys (the invariant of a Python `dict`). -/
def keysNodup : List (String × Val) → Bool
  | [] => true
  | (k, _) :: tl => !(dget tl k).isSome && keysNodup tl

mutual
/-- Hypothesis of claim C9 on a value: mappings carry no directive key and
no `False` value at any depth, and (being images of Python dicts) have
unique keys at every depth. -/
def cleanVal : Val → Bool
  | Val.vdict es => keysNodup es && cleanEntries es
  | Val.vlist xs => cleanList xs
  | _ => true

/-- Clean check over mapping entries. -/
def cleanEntries : List (String × Val) → Bool
  | [] => true
  | (k, v) :: tl => !isDirective k && !pyFalse v && cleanVal v && cleanEntries tl

/-- Clean check over sequence elements. -/
def cleanList : List Val → Bool
  | [] => true
  | v :: tl => cleanVal v && cleanList tl
end

mutual
/-- Python-dict well-formedness: unique keys at every depth. -/
def pyWF : Val → Bool
  | Val.vdict es => keysNodup es && pyWFEntries es
  | Val.vlist xs => pyWFList xs
  | _ => true

/-- Well-formedness over mapping entries. -/
def pyWFEntries : List (String × Val) → Bool
  | [] => true
  | (_, v) :: tl => pyWF v && pyWFEntries tl

/-- Well-formedness over sequence elements. -/
def pyWFList : List Val → Bool
  | [] => true
  | v :: tl => pyWF v && pyWFList tl
end

/-- Does a dotted path fully resolve in a value, in the sense of the
deletion walk: every segment up to the last finds its key in a mapping,
intermediate segments yielding nested mappings? -/
def resolvesB : Val → List String → Bool
  | _, [] => false
  | Val.vdict es, [p] => (dget es p).isSome
  | Val.vdict es, p :: q :: rest =>
      match dget es p with
      | some w => resolvesB w (q :: rest)
      | none => false
  | _, _ :: _ => false

/-- Lookup of a dotted path (with the path already split into parts). -/
def getPath : Val → List String → Option Val
  | v, [] => some v
  | Val.vdict es, p :: rest =>
      match dget es p with
      | some w => getPath w rest
      | none => none
  | _, _ :: _ => none

/-- Candidate list of claim C1's words, from the directory segments: for
each `i` in `0..n`, the variables file under the first `i` segments, then
the target itself. -/
def specCandidates (cfg : Config) (dirs : List String) (target : String) : List String :=
  ((List.range (dirs.length + 1)).map
      (fun i => ospJoin (dirs.take i ++ [cfg.vars_filename]))) ++ [target]

theorem dset_cons (k' : String) (v' : Val) (tl : List (String × Val)) (k : String) (v : Val) :
    dset ((k', v') :: tl) k v = if k' = k then (k, v) :: tl else (k', v') :: dset tl k v := rfl

theorem ddel_cons (k' : String) (v' : Val) (tl : List (String × Val)) (k : String) :
    ddel ((k', v') :: tl) k = if k' = k then tl else (k', v') :: ddel tl k := rfl

theorem dget_cons (k' : String) (v' : Val) (tl : List (String × Val)) (k : String) :
    dget ((k', v') :: tl) k = if k' = k then some v' else dget tl k := rfl

theorem dget_mem {es : List (String × Val)} {k : String} {v : Val}
    (h : dget es k = some v) : (k, v) ∈ es := by
  induction es with
  | nil => simp [dget] at h
  | cons e tl ih =>
      obtain ⟨k', v'⟩ := e
      by_cases hk : k' = k
      · subst hk
        simp [dget] at h
        simp [h]
      · simp [dget, hk] at h
        simp [ih h]

theorem dget_mem_topKeys {es : List (String × Val)} {k : String} {v : Val}
    (h : dget es k = some v) : k ∈ topKeys es := by
  have := dget_mem h
  simp only [topKeys, List.mem_map]
  exact ⟨(k, v), this, rfl⟩

theorem dget_none_of_not_mem {es : List (String × Val)} {k : String}
    (h : k ∉ topKeys es) : dget es k = none := by
  induction es with
  | nil => rfl
  | cons e tl ih =>
      obtain ⟨k', v'⟩ := e
      simp only [topKeys, List.map_cons, List.mem_cons, not_or] at h
      have hne : k' ≠ k := fun hh => h.1 hh.symm
      simp only [dget, if_neg hne]
      exact ih (by simpa [topKeys] using h.2)

theorem dget_nodup_of_mem {es : List (String × Val)} {k : String} {v : Val}
    (hnd : keysNodup es = true) (h : (k, v) ∈ es) : dget es k = some v := by
  induction es with
  | nil => simp at h
  | cons e tl ih =>
      obtain ⟨k', v'⟩ := e
      simp only [keysNodup, Bool.and_eq_true, Bool.not_eq_true'] at hnd
      rcases List.mem_cons.mp h with h1 | h1
      · injection h1 with h2 h3
        subst h2; subst h3
        simp [dget]
      · have hd := ih hnd.2 h1
        have hne : k' ≠ k := by
          intro he
          have h4 := hnd.1
          rw [he, hd] at h4
          simp at h4
        simp [dget, hne, hd]

theorem dget_dset_self (es : List (String × Val)) (k : String) (v : Val) :
    dget (dset es k v) k = some v := by
  induction es with
  | nil => simp [dset, dget]
  | cons e tl ih =>
      obtain ⟨k', v'⟩ := e
      by_cases hk : k' = k
      · simp [dset, dget, hk]
      · simp [dset, dget, hk, ih]

theorem dget_dset_ne (es : List (String × Val)) (k k' : String) (v : Val)
    (h : k' ≠ k) : dget (dset es k v) k' = dget es k' := by
  induction es with
  | nil =>
      have hne : ¬k = k' := fun hh => h hh.symm
      simp [dset, dget, hne]
  | cons e tl ih =>
      obtain ⟨k'', v''⟩ := e
      by_cases hk : k'' = k
      · subst hk
        have hne : ¬k'' = k' := fun hh => h hh.symm
        simp [dset, dget, hne]
      · simp only [dset, if_neg hk, dget]
        by_cases hk2 : k'' = k'
        · simp [hk2]
        · simp [hk2, ih]

theorem dset_self {es : List (String × Val)} {k : String} {v : Val}
    (h : dget es k = some v) : dset es k v = es := by
  induction es with
  | nil => simp [dget] at h
  | cons e tl ih =>
      obtain ⟨k', v'⟩ := e
      by_cases hk : k' = k
      · subst hk
        simp [dget] at h
        simp [dset, h]
      · simp [dget, hk] at h
        simp [dset, hk, ih h]

theorem ddel_of_none {es : List (String × Val)} {k : String}
    (h : dget es k = none) : ddel es k = es := by
  induction es with
  | nil => rfl
  | cons e tl ih =>
      obtain ⟨k', v'⟩ := e
      by_cases hk : k' = k
      · simp [dget, hk] at h
      · simp [dget, hk] at h
        simp [ddel, hk, ih h]

theorem ddel_dset_none {es : List (String × Val)} {k : String} (v : Val)
    (h : dget es k = none) : ddel (dset es k v) k = es := by
  induction es with
  | nil => simp [dset, ddel]
  | cons e tl ih =>
      obtain ⟨k', v'⟩ := e
      by_cases hk : k' = k
      · simp [dget, hk] at h
      · simp [dget, hk] at h
        simp [dset, ddel, hk, ih h]

theorem topKeys_dset_mem {es : List (String × Val)} {k k' : String} {v : Val}
    (h : k' ∈ topKeys (dset es k v)) : k' ∈ topKeys es ∨ k' = k := by
  induction es with
  | nil =>
      simp [dset, topKeys] at h
      exact Or.inr h
  | cons e tl ih =>
      obtain ⟨k'', v''⟩ := e
      by_cases hk : k'' = k
      · subst hk
        rw [dset_cons, if_pos rfl] at h
        simp only [topKeys, List.map_cons, List.mem_cons] at h
        rcases h with h | h
        · exact Or.inr h
        · exact Or.inl (by
            simp only [topKeys, List.map_cons, List.mem_cons]
            exact Or.inr h)
      · rw [dset_cons, if_neg hk] at h
        simp only [topKeys, List.map_cons, List.mem_cons] at h
        simp only [topKeys, List.map_cons, List.mem_cons]
        rcases h with h | h
        · exact Or.inl (Or.inl h)
        · rcases ih (by simpa [topKeys] using h) with h2 | h2
          · exact Or.inl (Or.inr (by simpa [topKeys] using h2))
          · exact Or.inr h2

theorem topKeys_ddel_mem {es : List (String × Val)} {k k' : String}
    (h : k' ∈ topKeys (ddel es k)) : k' ∈ topKeys es := by
  induction es with
  | nil => simpa [ddel] using h
  | cons e tl ih =>
      obtain ⟨k'', v''⟩ := e
      by_cases hk : k'' = k
      · simp only [ddel, if_pos hk] at h
        simp only [topKeys, List.map_cons, List.mem_cons]
        exact Or.inr (by simpa [topKeys] using h)
      · simp only [ddel, if_neg hk, topKeys, List.map_cons, List.mem_cons] at h
        simp only [topKeys, List.map_cons, List.mem_cons]
        rcases h with h | h
        · exact Or.inl h
        · exact Or.inr (by simpa [topKeys] using ih (by simpa [topKeys] using h))

theorem strData_inj {a b : String} (h : a.data = b.data) : a = b :=
  congrArg String.mk h

theorem strEndsWith_append_self (s t : String) : strEndsWith (s ++ t) t = true := by
  simp only [strEndsWith, String.data_append, decide_eq_true_eq]
  have hlen : (s.data ++ t.data).length - t.data.length = s.data.length := by
    simp
  rw [hlen, List.drop_left]

theorem strip8_append (s t : String) (h : t.data.length = 8) : strip8 (s ++ t) = s := by
  apply strData_inj
  simp only [strip8, String.data_append]
  have hlen : (s.data ++ t.data).length - 8 = s.data.length := by
    simp [h]
  rw [hlen, List.take_left]

theorem strEndsWith_drop {s t : String} (h : strEndsWith s t = true) :
    s.data.drop (s.data.length - t.data.length) = t.data := by
  simpa [strEndsWith] using h

theorem strEndsWith_unique8 {s a b : String} (ha : strEndsWith s a = true)
    (hb : strEndsWith s b = true) (hla : a.data.length = 8) (hlb : b.data.length = 8) :
    a = b := by
  apply strData_inj
  have h1 := strEndsWith_drop ha
  have h2 := strEndsWith_drop hb
  rw [hla] at h1
  rw [hlb] at h2
  rw [← h1, ← h2]

theorem not_remove_of_append {s : String} (h : strEndsWith s "__append" = true) :
    strEndsWith s "__remove" = false := by
  by_contra hc
  have hb : strEndsWith s "__remove" = true := by
    revert hc
    cases strEndsWith s "__remove" <;> simp
  have := strEndsWith_unique8 h hb (by decide) (by decide)
  exact absurd this (by decide)

theorem ne_delete_of_append {s : String} (h : strEndsWith s "__append" = true) :
    s ≠ "__delete_keys__" := by
  intro he
  rw [he] at h
  exact absurd h (by decide)

theorem strip8_inj_append {a b : String} (ha : strEndsWith a "__append" = true)
    (hb : strEndsWith b "__append" = true) (h : strip8 a = strip8 b) : a = b := by
  apply strData_inj
  have h1 := strEndsWith_drop ha
  have h2 := strEndsWith_drop hb
  have hlen8 : ("__append" : String).data.length = 8 := rfl
  rw [hlen8] at h1 h2
  have ha' : a.data = a.data.take (a.data.length - 8) ++ ("__append" : String).data := by
    rw [← h1]
    exact (List.take_append_drop _ _).symm
  have hb' : b.data = b.data.take (b.data.length - 8) ++ ("__append" : String).data := by
    rw [← h2]
    exact (List.take_append_drop _ _).symm
  have ht : a.data.take (a.data.length - 8) = b.data.take (b.data.length - 8) :=
    congrArg String.data h
  rw [ha', hb', ht]

theorem splitOnChar_ne_nil (c : Char) (l : List Char) : splitOnChar c l ≠ [] := by
  induction l with
  | nil => simp [splitOnChar]
  | cons x rest ih =>
      by_cases hx : x = c
      · simp [splitOnChar, hx]
      · rw [splitOnChar, if_neg hx]
        cases hs : splitOnChar c rest with
        | nil => simp
        | cons s ss => simp

theorem splitOnChar_headD (c : Char) (l : List Char) :
    (splitOnChar c l).headD [] = l.takeWhile (fun x => !(x == c)) := by
  induction l with
  | nil => rfl
  | cons x rest ih =>
      by_cases hx : x = c
      · rw [splitOnChar, if_pos hx]
        simp [List.takeWhile_cons, hx]
      · rw [splitOnChar, if_neg hx]
        cases hs : splitOnChar c rest with
        | nil => exact absurd hs (splitOnChar_ne_nil c rest)
        | cons s ss =>
            rw [hs] at ih
            simp only [List.headD_cons] at ih
            simp [List.takeWhile_cons, hx, ← ih]

theorem replaceBS_id {l : List Char} (h : '\\' ∉ l) : replaceBS l = l := by
  induction l with
  | nil => rfl
  | cons x rest ih =>
      simp only [List.mem_cons, not_or] at h
      have hx : ¬x = '\\' := fun hh => h.1 hh.symm
      simp only [replaceBS, List.map_cons, if_neg hx]
      have := ih h.2
      simp only [replaceBS] at this
      rw [this]

theorem takeWhile_no_slash {l : List Char} (h : '/' ∉ l) :
    l.takeWhile (fun x => !(x == '/')) = l := by
  induction l with
  | nil => rfl
  | cons x rest ih =>
      simp only [List.mem_cons, not_or] at h
      have hx : (fun x => !(x == '/')) x = true := by
        simp only [Bool.not_eq_true']
        exact beq_false_of_ne (fun hh => h.1 hh.symm)
      rw [List.takeWhile_cons, if_pos hx, ih h.2]

/-- Claim C6 (amended).  The target classifier returns the segment of the
(backslash-normalised) path before the first `/`; for a path containing no
separator this is the whole path — the file name itself, not the empty
directory portion. -/
theorem claim_c6_target_type (p : String) :
    get_target_type p = ⟨(replaceBS p.data).takeWhile (fun x => !(x == '/'))⟩
    ∧ ('/' ∉ p.data → '\\' ∉ p.data → get_target_type p = p) := by
  constructor
  · exact congrArg String.mk (splitOnChar_headD '/' (replaceBS p.data))
  · intro hs hb
    show String.mk ((splitOnChar '/' (replaceBS p.data)).headD []) = p
    rw [splitOnChar_headD, replaceBS_id hb, takeWhile_no_slash hs]

/-- Witness for claim C6's theorem at a separator-free concrete path. -/
theorem claim_c6_witness : get_target_type "GW01.yaml" = "GW01.yaml" :=
  (claim_c6_target_type "GW01.yaml").2 (by decide) (by decide)

/-- Counterexample to claim C6 as stated: for the separator-free relative
path `"r1.yaml"` the classifier returns the whole file name, not the empty
directory portion claimed by the spec. -/
theorem claim_c6_counterexample :
    get_target_type "r1.yaml" = "r1.yaml" ∧ ("r1.yaml" : String) ≠ "" := by
  constructor
  · decide
  · decide

theorem loadFold_cons (fs : String → FileState) (acc : Val) (c : String) (rest : List String) :
    loadFold fs acc (c :: rest) =
      match fs c with
      | .absent => loadFold fs acc rest
      | .scanError => .ok none
      | .parseOtherError => .error ()
      | .parsed v =>
          match merge_dicts_deep acc (if truthy v then v else Val.vdict []) with
          | .error e => .error e
          | .ok acc' => loadFold fs acc' rest := rfl

theorem merge_empty_override (es : List (String × Val)) :
    merge_dicts_deep (Val.vdict es) (Val.vdict []) = .ok (Val.vdict es) := by
  rw [merge_dicts_deep]
  simp [applyDeleteStep, dget, handle_remove_keys, handle_append_keys, remove_false_values,
    mergeLoop]

/-- Claim C10.  An existing candidate whose content parses to a falsy
value (null, empty mapping, empty sequence, …) is loaded as the empty
mapping; merging the empty mapping into a mapping accumulator returns the
accumulator unchanged, so the candidate neither changes the accumulator
nor fails the target's resolution. -/
theorem claim_c10_falsy_candidate (fs : String → FileState) (es : List (String × Val))
    (c : String) (rest : List String) (v : Val)
    (hfs : fs c = .parsed v) (htr : truthy v = false) :
    merge_dicts_deep (Val.vdict es) (Val.vdict []) = .ok (Val.vdict es)
    ∧ loadFold fs (Val.vdict es) (c :: rest) = loadFold fs (Val.vdict es) rest := by
  refine ⟨merge_empty_override es, ?_⟩
  rw [loadFold_cons, hfs]
  show (match merge_dicts_deep (Val.vdict es) (if truthy v = true then v else Val.vdict []) with
        | Except.error e => Except.error e
        | Except.ok acc' => loadFold fs acc' rest) = loadFold fs (Val.vdict es) rest
  rw [htr, if_neg (by simp), merge_empty_override]

/-- Store with a single empty (null-parsing) variables file, for the C10
witness. -/
def emptyVarsFS : String → FileState := fun p =>
  if p = "empty.yaml" then FileState.parsed Val.vnull else FileState.absent

/-- Witness for claim C10's theorem at a concrete falsy candidate. -/
theorem claim_c10_witness :
    merge_dicts_deep (Val.vdict [("a", Val.vint 1)]) (Val.vdict []) =
      .ok (Val.vdict [("a", Val.vint 1)])
    ∧ loadFold emptyVarsFS (Val.vdict [("a", Val.vint 1)]) ["empty.yaml"] =
      loadFold emptyVarsFS (Val.vdict [("a", Val.vint 1)]) [] :=
  claim_c10_falsy_candidate emptyVarsFS [("a", Val.vint 1)] "empty.yaml" [] Val.vnull rfl rfl

theorem handle_remove_cons (t : List (String × Val)) (k : String) (v : Val)
    (rest : List (String × Val)) :
    handle_remove_keys t ((k, v) :: rest) =
      handle_remove_keys (if strEndsWith k "__remove" then remove_one t k v else t) rest := rfl

theorem handle_remove_skip {k : String} (t : List (String × Val)) (v : Val)
    (rest : List (String × Val)) (h : strEndsWith k "__remove" = false) :
    handle_remove_keys t ((k, v) :: rest) = handle_remove_keys t rest := by
  rw [handle_remove_cons, h]
  rfl

theorem handle_remove_step {k : String} (t : List (String × Val)) (v : Val)
    (rest : List (String × Val)) (h : strEndsWith k "__remove" = true) :
    handle_remove_keys t ((k, v) :: rest) = handle_remove_keys (remove_one t k v) rest := by
  rw [handle_remove_cons, h]
  rfl

theorem handle_append_cons (t : List (String × Val)) (k : String) (v : Val)
    (rest : List (String × Val)) :
    handle_append_keys t ((k, v) :: rest) =
      if strEndsWith k "__append" then
        match v with
        | Val.vlist items =>
            match append_one t k items with
            | .error e => .error e
            | .ok t' => handle_append_keys t' rest
        | _ => .error ()
      else handle_append_keys t rest := rfl

theorem handle_append_skip {k : String} (t : List (String × Val)) (v : Val)
    (rest : List (String × Val)) (h : strEndsWith k "__append" = false) :
    handle_append_keys t ((k, v) :: rest) = handle_append_keys t rest := by
  rw [handle_append_cons, h]
  rfl

theorem handle_append_cons_list {k : String} (t : List (String × Val)) (items : List Val)
    (rest : List (String × Val)) (h : strEndsWith k "__append" = true) :
    handle_append_keys t ((k, Val.vlist items) :: rest) =
      match append_one t k items with
      | .error e => .error e
      | .ok t' => handle_append_keys t' rest := by
  rw [handle_append_cons, h]
  rfl

theorem handle_append_cons_bad {k : String} {v : Val} (t : List (String × Val))
    (rest : List (String × Val)) (h : strEndsWith k "__append" = true)
    (hv : isListV v = false) :
    handle_append_keys t ((k, v) :: rest) = .error () := by
  rw [handle_append_cons, h]
  cases v <;> first
    | rfl
    | exact absurd hv (by simp [isListV])

theorem remove_false_cons (t : List (String × Val)) (k : String) (v : Val)
    (rest : List (String × Val)) :
    remove_false_values t ((k, v) :: rest) =
      remove_false_values (if pyFalse v then ddel t k else t) rest := rfl

theorem mergeLoop_skip {k : String} {v : Val} (res : List (String × Val))
    (rest : List (String × Val))
    (h : ((k == "__delete_keys__") || strEndsWith k "__remove" || strEndsWith k "__append" || pyFalse v) = true) :
    mergeLoop res ((k, v) :: rest) = mergeLoop res rest := by
  rw [mergeLoop]
  simp [h]

theorem mergeLoop_step_dget_none {k : String} {v : Val} (res : List (String × Val))
    (rest : List (String × Val))
    (h : ((k == "__delete_keys__") || strEndsWith k "__remove" || strEndsWith k "__append" || pyFalse v) = false)
    (hg : dget res k = none) :
    mergeLoop res ((k, v) :: rest) = mergeLoop (dset res k v) rest := by
  rw [mergeLoop]
  simp [h, hg]

theorem mergeLoop_step_dget_nondict {k : String} {v w : Val} (res : List (String × Val))
    (rest : List (String × Val))
    (h : ((k == "__delete_keys__") || strEndsWith k "__remove" || strEndsWith k "__append" || pyFalse v) = false)
    (hg : dget res k = some w) (hw : ∀ bsub, w ≠ Val.vdict bsub) :
    mergeLoop res ((k, v) :: rest) = mergeLoop (dset res k v) rest := by
  rw [mergeLoop]
  cases w with
  | vdict bsub => exact absurd rfl (hw bsub)
  | vnull => simp [h, hg]
  | vbool b => simp [h, hg]
  | vint n => simp [h, hg]
  | vstr a => simp [h, hg]
  | vlist xs => simp [h, hg]

theorem mergeLoop_step_nested_nondict {k : String} {v : Val} {bsub : List (String × Val)}
    (res : List (String × Val)) (rest : List (String × Val))
    (h : ((k == "__delete_keys__") || strEndsWith k "__remove" || strEndsWith k "__append" || pyFalse v) = false)
    (hg : dget res k = some (Val.vdict bsub)) (hv : ∀ osub, v ≠ Val.vdict osub) :
    mergeLoop res ((k, v) :: rest) = mergeLoop (dset res k v) rest := by
  rw [mergeLoop]
  cases v with
  | vdict osub => exact absurd rfl (hv osub)
  | vnull => simp [h, hg]
  | vbool b => simp [h, hg]
  | vint n => simp [h, hg]
  | vstr a => simp [h, hg]
  | vlist xs => simp [h, hg]

theorem mergeLoop_step_dict_ok {k : String} {bsub osub : List (String × Val)} {m : Val}
    (res : List (String × Val)) (rest : List (String × Val))
    (h : ((k == "__delete_keys__") || strEndsWith k "__remove" || strEndsWith k "__append" || pyFalse (Val.vdict osub)) = false)
    (hg : dget res k = some (Val.vdict bsub))
    (hm : merge_dicts_deep (Val.vdict bsub) (Val.vdict osub) = .ok m) :
    mergeLoop res ((k, Val.vdict osub) :: rest) = mergeLoop (dset res k m) rest := by
  rw [mergeLoop]
  simp [h, hg, hm]

theorem mergeLoop_step_dict_err {k : String} {bsub osub : List (String × Val)}
    (res : List (String × Val)) (rest : List (String × Val))
    (h : ((k == "__delete_keys__") || strEndsWith k "__remove" || strEndsWith k "__append" || pyFalse (Val.vdict osub)) = false)
    (hg : dget res k = some (Val.vdict bsub))
    (hm : merge_dicts_deep (Val.vdict bsub) (Val.vdict osub) = .error ()) :
    mergeLoop res ((k, Val.vdict osub) :: rest) = .error () := by
  rw [mergeLoop]
  simp [h, hg, hm]

theorem merge_dict_ok {bes oes r1 r3 r5 : List (String × Val)}
    (hd : applyDeleteStep bes oes = .ok r1)
    (ha : handle_append_keys (handle_remove_keys r1 oes) oes = .ok r3)
    (hm : mergeLoop (remove_false_values r3 oes) oes = .ok r5) :
    merge_dicts_deep (Val.vdict bes) (Val.vdict oes) = .ok (Val.vdict r5) := by
  rw [merge_dicts_deep]
  simp [hd, ha, hm]

theorem merge_dict_err_delete {bes oes : List (String × Val)}
    (hd : applyDeleteStep bes oes = .error ()) :
    merge_dicts_deep (Val.vdict bes) (Val.vdict oes) = .error () := by
  rw [merge_dicts_deep]
  simp [hd]

theorem merge_dict_err_append {bes oes r1 : List (String × Val)}
    (hd : applyDeleteStep bes oes = .ok r1)
    (ha : handle_append_keys (handle_remove_keys r1 oes) oes = .error ()) :
    merge_dicts_deep (Val.vdict bes) (Val.vdict oes) = .error () := by
  rw [merge_dicts_deep]
  simp [hd, ha]

theorem merge_dict_err_loop {bes oes r1 r3 : List (String × Val)}
    (hd : applyDeleteStep bes oes = .ok r1)
    (ha : handle_append_keys (handle_remove_keys r1 oes) oes = .ok r3)
    (hm : mergeLoop (remove_false_values r3 oes) oes = .error ()) :
    merge_dicts_deep (Val.vdict bes) (Val.vdict oes) = .error () := by
  rw [merge_dicts_deep]
  simp [hd, ha, hm]

theorem append_one_absent {t : List (String × Val)} {k : String} (items : List Val)
    (h : dget t (strip8 k) = none) :
    append_one t k items = .ok (dset t (strip8 k) (Val.vlist items)) := by
  simp [append_one, h]

theorem append_one_list {t : List (String × Val)} {k : String} {bl : List Val} (items : List Val)
    (h : dget t (strip8 k) = some (Val.vlist bl)) :
    append_one t k items = .ok (dset t (strip8 k) (Val.vlist (bl ++ items))) := by
  simp [append_one, h]

theorem append_one_bad {t : List (String × Val)} {k : String} {w : Val} (items : List Val)
    (h : dget t (strip8 k) = some w) (hw : isListV w = false) :
    append_one t k items = .error () := by
  rw [append_one]
  cases w with
  | vlist xs => exact absurd hw (by simp [isListV])
  | vnull => simp [h]
  | vbool b => simp [h]
  | vint n => simp [h]
  | vstr a => simp [h]
  | vdict es => simp [h]

theorem remove_one_vbool_false (t : List (String × Val)) (k : String) :
    remove_one t k (Val.vbool false) = t := rfl

/-- Claim C5 (amended).  In `merge_dicts_deep` the deletion and `__remove`
steps run before `__append`, but removal of `False`-valued override keys
runs after `__append`; hence an override carrying both `K: false` and
`K__append: L`, against a base lacking `K`, first creates `K` from the
append and then deletes it again — the merge returns the base unchanged
and `K` is absent from the result, not mapped to `L`. -/
theorem claim_c5_false_after_append (k : String) (L : List Val) (bes : List (String × Val))
    (hka : strEndsWith k "__append" = false) (hbk : dget bes k = none) :
    merge_dicts_deep (Val.vdict bes)
      (Val.vdict [(k, Val.vbool false), (k ++ "__append", Val.vlist L)]) =
      .ok (Val.vdict bes) := by
  have hk'app : strEndsWith (k ++ "__append") "__append" = true := strEndsWith_append_self k _
  have hstrip : strip8 (k ++ "__append") = k := strip8_append k _ (by decide)
  have hk'rem : strEndsWith (k ++ "__append") "__remove" = false := not_remove_of_append hk'app
  have hk'del : ¬(k ++ "__append") = "__delete_keys__" := ne_delete_of_append hk'app
  have hd : applyDeleteStep bes [(k, Val.vbool false), (k ++ "__append", Val.vlist L)] =
      .ok bes := by
    by_cases hk : k = "__delete_keys__"
    · have hg : dget [(k, Val.vbool false), (k ++ "__append", Val.vlist L)] "__delete_keys__" =
          some (Val.vbool false) := by
        rw [dget_cons, if_pos hk]
      simp [applyDeleteStep, hg, deleteSpecs, truthy]
    · have hg : dget [(k, Val.vbool false), (k ++ "__append", Val.vlist L)] "__delete_keys__" =
          none := by
        rw [dget_cons, if_neg hk, dget_cons, if_neg hk'del]
        rfl
      simp [applyDeleteStep, hg]
  have hr : handle_remove_keys bes [(k, Val.vbool false), (k ++ "__append", Val.vlist L)] =
      bes := by
    rw [handle_remove_cons]
    have h1 : (if strEndsWith k "__remove" then remove_one bes k (Val.vbool false) else bes) =
        bes := by
      by_cases hkr : strEndsWith k "__remove"
      · rw [if_pos hkr, remove_one_vbool_false]
      · rw [if_neg hkr]
    rw [h1, handle_remove_skip _ _ _ hk'rem]
    rfl
  have ha : handle_append_keys bes [(k, Val.vbool false), (k ++ "__append", Val.vlist L)] =
      .ok (dset bes k (Val.vlist L)) := by
    rw [handle_append_skip _ _ _ hka, handle_append_cons_list _ _ _ hk'app,
      append_one_absent L (by rw [hstrip]; exact hbk)]
    rw [hstrip]
    rfl
  have hf : remove_false_values (dset bes k (Val.vlist L))
      [(k, Val.vbool false), (k ++ "__append", Val.vlist L)] = bes := by
    rw [remove_false_cons]
    have h1 : pyFalse (Val.vbool false) = true := rfl
    rw [h1, if_pos rfl, ddel_dset_none _ hbk, remove_false_cons]
    have h2 : pyFalse (Val.vlist L) = false := rfl
    rw [h2]
    rfl
  have hm : mergeLoop bes [(k, Val.vbool false), (k ++ "__append", Val.vlist L)] =
      .ok bes := by
    rw [mergeLoop_skip _ _ (by simp [pyFalse]), mergeLoop_skip _ _ (by simp [hk'app])]
    rw [mergeLoop]
  have := merge_dict_ok hd (by rw [hr]; exact ha) (by rw [hf]; exact hm)
  exact this

/-- Witness for claim C5's theorem at a concrete key and base. -/
theorem claim_c5_witness :
    merge_dicts_deep (Val.vdict [("other", Val.vint 2)])
      (Val.vdict [("k", Val.vbool false), ("k" ++ "__append", Val.vlist [Val.vint 1])]) =
      .ok (Val.vdict [("other", Val.vint 2)]) :=
  claim_c5_false_after_append "k" [Val.vint 1] [("other", Val.vint 2)] (by decide) (by decide)

/-- Counterexample to claim C5 as stated: with base `{}` and override
`{"k": false, "k__append": [1]}` the merge yields `{}` — the appended list
is deleted again by the later false-key removal — whereas the claim says
the result maps `"k"` to `[1]`. -/
theorem claim_c5_counterexample :
    merge_dicts_deep (Val.vdict [])
      (Val.vdict [("k", Val.vbool false), ("k__append", Val.vlist [Val.vint 1])]) =
      .ok (Val.vdict [])
    ∧ Val.vdict [] ≠ Val.vdict [("k", Val.vlist [Val.vint 1])] := by
  constructor
  · have hm : mergeLoop
        (remove_false_values [("k", Val.vlist [Val.vint 1])]
          [("k", Val.vbool false), ("k__append", Val.vlist [Val.vint 1])])
        [("k", Val.vbool false), ("k__append", Val.vlist [Val.vint 1])] = .ok [] := by
      rw [show remove_false_values [("k", Val.vlist [Val.vint 1])]
          [("k", Val.vbool false), ("k__append", Val.vlist [Val.vint 1])] = [] from by decide]
      rw [mergeLoop_skip _ _ (by decide), mergeLoop_skip _ _ (by decide), mergeLoop]
    have hd : applyDeleteStep [] [("k", Val.vbool false), ("k__append", Val.vlist [Val.vint 1])] =
        .ok [] := by decide
    have ha : handle_append_keys
        (handle_remove_keys [] [("k", Val.vbool false), ("k__append", Val.vlist [Val.vint 1])])
        [("k", Val.vbool false), ("k__append", Val.vlist [Val.vint 1])] =
        .ok [("k", Val.vlist [Val.vint 1])] := by decide
    exact merge_dict_ok hd ha hm
  · decide

/-- Malformedness of one `__append` directive entry against a mapping: the
key ends in `__append` and either its value is not a sequence, or the
stripped base key is present in the mapping with a non-sequence value. -/
def appendBad (target : List (String × Val)) (k : String) (v : Val) : Prop :=
  strEndsWith k "__append" = true ∧
    (isListV v = false ∨ ∃ w, dget target (strip8 k) = some w ∧ isListV w = false)

theorem appendBad_dset_list_iff (target : List (String × Val)) (k : String) (X : List Val)
    (hk : strEndsWith k "__append" = true)
    (hO : dget target (strip8 k) = none ∨ ∃ bl, dget target (strip8 k) = some (Val.vlist bl))
    (k' : String) (v' : Val) :
    appendBad (dset target (strip8 k) (Val.vlist X)) k' v' ↔ appendBad target k' v' := by
  by_cases hk' : strEndsWith k' "__append" = true
  · by_cases he : strip8 k' = strip8 k
    · have hkk : k' = k := strip8_inj_append hk' hk he
      subst hkk
      simp only [appendBad, he, dget_dset_self]
      constructor
      · rintro ⟨h1, h2 | ⟨w, hw1, hw2⟩⟩
        · exact ⟨h1, Or.inl h2⟩
        · injection hw1 with hw1
          rw [← hw1] at hw2
          exact absurd hw2 (by simp [isListV])
      · rintro ⟨h1, h2 | ⟨w, hw1, hw2⟩⟩
        · exact ⟨h1, Or.inl h2⟩
        · rcases hO with hO | ⟨bl, hO⟩
          · rw [hO] at hw1
            exact absurd hw1 (by simp)
          · rw [hO] at hw1
            injection hw1 with hw1
            rw [← hw1] at hw2
            exact absurd hw2 (by simp [isListV])
    · simp only [appendBad, dget_dset_ne _ _ _ _ he]
  · simp only [appendBad]
    constructor
    · rintro ⟨h1, _⟩
      exact absurd h1 hk'
    · rintro ⟨h1, _⟩
      exact absurd h1 hk'

theorem isListV_false_cases {w : Val} (h : isListV w = false) : ∀ xs, w ≠ Val.vlist xs := by
  intro xs he
  rw [he] at h
  simp [isListV] at h

theorem handle_append_error_iff :
    ∀ (oes target : List (String × Val)),
      handle_append_keys target oes = .error () ↔ ∃ k v, (k, v) ∈ oes ∧ appendBad target k v := by
  intro oes
  induction oes with
  | nil =>
      intro target
      constructor
      · intro h
        exact absurd h (by simp [handle_append_keys])
      · rintro ⟨k, v, hm, _⟩
        simp at hm
  | cons e rest ih =>
      obtain ⟨k, v⟩ := e
      intro target
      by_cases hk : strEndsWith k "__append" = true
      · cases v with
        | vlist items =>
            cases hg : dget target (strip8 k) with
            | none =>
                rw [handle_append_cons_list _ _ _ hk, append_one_absent items hg]
                have hiff := ih (dset target (strip8 k) (Val.vlist items))
                rw [hiff]
                constructor
                · rintro ⟨k', v', hm, hb⟩
                  exact ⟨k', v', List.mem_cons_of_mem _ hm,
                    (appendBad_dset_list_iff target k items hk (Or.inl hg) k' v').mp hb⟩
                · rintro ⟨k', v', hm, hb⟩
                  rcases List.mem_cons.mp hm with hm | hm
                  · injection hm with hm1 hm2
                    subst hm1; subst hm2
                    rcases hb.2 with hbv | ⟨w, hw1, _⟩
                    · exact absurd hbv (by simp [isListV])
                    · rw [hg] at hw1
                      exact absurd hw1 (by simp)
                  · exact ⟨k', v', hm,
                      (appendBad_dset_list_iff target k items hk (Or.inl hg) k' v').mpr hb⟩
            | some w =>
                by_cases hw : isListV w = true
                · obtain ⟨bl, rfl⟩ : ∃ bl, w = Val.vlist bl := by
                    cases w <;> simp [isListV] at hw ⊢
                  rw [handle_append_cons_list _ _ _ hk, append_one_list items hg]
                  have hiff := ih (dset target (strip8 k) (Val.vlist (bl ++ items)))
                  rw [hiff]
                  constructor
                  · rintro ⟨k', v', hm, hb⟩
                    exact ⟨k', v', List.mem_cons_of_mem _ hm,
                      (appendBad_dset_list_iff target k (bl ++ items) hk
                        (Or.inr ⟨bl, hg⟩) k' v').mp hb⟩
                  · rintro ⟨k', v', hm, hb⟩
                    rcases List.mem_cons.mp hm with hm | hm
                    · injection hm with hm1 hm2
                      subst hm1; subst hm2
                      rcases hb.2 with hbv | ⟨w', hw1, hw2⟩
                      · exact absurd hbv (by simp [isListV])
                      · rw [hg] at hw1
                        injection hw1 with hw1
                        rw [← hw1] at hw2
                        exact absurd hw2 (by simp [isListV])
                    · exact ⟨k', v', hm,
                        (appendBad_dset_list_iff target k (bl ++ items) hk
                          (Or.inr ⟨bl, hg⟩) k' v').mpr hb⟩
                · have hw' : isListV w = false := by
                    revert hw
                    cases isListV w <;> simp
                  rw [handle_append_cons_list _ _ _ hk, append_one_bad items hg hw']
                  constructor
                  · intro _
                    exact ⟨k, Val.vlist items, List.mem_cons_self _ _,
                      hk, Or.inr ⟨w, hg, hw'⟩⟩
                  · intro _
                    rfl
        | vnull =>
            rw [handle_append_cons_bad _ _ hk (by simp [isListV])]
            exact ⟨fun _ => ⟨k, Val.vnull, List.mem_cons_self _ _, hk, Or.inl rfl⟩, fun _ => rfl⟩
        | vbool b =>
            rw [handle_append_cons_bad _ _ hk (by simp [isListV])]
            exact ⟨fun _ => ⟨k, Val.vbool b, List.mem_cons_self _ _, hk, Or.inl rfl⟩, fun _ => rfl⟩
        | vint n =>
            rw [handle_append_cons_bad _ _ hk (by simp [isListV])]
            exact ⟨fun _ => ⟨k, Val.vint n, List.mem_cons_self _ _, hk, Or.inl rfl⟩, fun _ => rfl⟩
        | vstr a =>
            rw [handle_append_cons_bad _ _ hk (by simp [isListV])]
            exact ⟨fun _ => ⟨k, Val.vstr a, List.mem_cons_self _ _, hk, Or.inl rfl⟩, fun _ => rfl⟩
        | vdict es =>
            rw [handle_append_cons_bad _ _ hk (by simp [isListV])]
            exact ⟨fun _ => ⟨k, Val.vdict es, List.mem_cons_self _ _, hk, Or.inl rfl⟩, fun _ => rfl⟩
      · have hk' : strEndsWith k "__append" = false := by
          revert hk
          cases strEndsWith k "__append" <;> simp
        rw [handle_append_skip _ _ _ hk']
        rw [ih target]
        constructor
        · rintro ⟨k', v', hm, hb⟩
          exact ⟨k', v', List.mem_cons_of_mem _ hm, hb⟩
        · rintro ⟨k', v', hm, hb⟩
          rcases List.mem_cons.mp hm with hm | hm
          · injection hm with hm1 hm2
            subst hm1; subst hm2
            exact absurd hb.1 (by rw [hk']; simp)
          · exact ⟨k', v', hm, hb⟩

/-- Claim C4 (amended).  The append step of the merge fails fatally exactly
when the override contains a key ending in `__append` whose value is not a
sequence or whose stripped base key maps to a non-sequence in the mapping
the step runs against; `merge_dicts_deep` runs this step after the
deletion and removal steps (and again inside every recursive merge of
nested mappings, so the whole merge can die without any top-level
`__append` key); in particular `{"acl__append": "not-a-list"}` against any
mapping base is fatal. -/
theorem claim_c4_append_fatal :
    (∀ (target oes : List (String × Val)),
      handle_append_keys target oes = .error () ↔
        ∃ k v, (k, v) ∈ oes ∧ appendBad target k v)
    ∧ (∀ bes : List (String × Val),
        merge_dicts_deep (Val.vdict bes)
          (Val.vdict [("acl__append", Val.vstr "not-a-list")]) = .error ()) := by
  constructor
  · intro target oes
    exact handle_append_error_iff oes target
  · intro bes
    have hg : dget [("acl__append", Val.vstr "not-a-list")] "__delete_keys__" = none := by decide
    have hd : applyDeleteStep bes [("acl__append", Val.vstr "not-a-list")] = .ok bes := by
      simp [applyDeleteStep, hg]
    have hr : handle_remove_keys bes [("acl__append", Val.vstr "not-a-list")] = bes := by
      rw [handle_remove_skip _ _ _ (by decide)]
      rfl
    have ha : handle_append_keys bes [("acl__append", Val.vstr "not-a-list")] = .error () :=
      handle_append_cons_bad _ _ (by decide) (by decide)
    exact merge_dict_err_append hd (by rw [hr]; exact ha)

/-- Witness for claim C4's theorem: a concrete malformed append directive
makes the append step fail. -/
theorem claim_c4_witness :
    handle_append_keys [] [("x__append", Val.vint 5)] = .error () :=
  (claim_c4_append_fatal.1 [] [("x__append", Val.vint 5)]).mpr
    ⟨"x__append", Val.vint 5, by simp, by decide, Or.inl (by decide)⟩

/-- Counterexample to claim C4 as stated: a malformed `__append` nested one
mapping level down makes the whole merge fail fatally although no
top-level key of the override ends in `__append`. -/
theorem claim_c4_counterexample :
    merge_dicts_deep (Val.vdict [("a", Val.vdict [("b", Val.vint 1)])])
      (Val.vdict [("a", Val.vdict [("b__append", Val.vlist [Val.vint 2])])]) = .error ()
    ∧ strEndsWith "a" "__append" = false := by
  refine ⟨?_, by decide⟩
  have hinner : merge_dicts_deep (Val.vdict [("b", Val.vint 1)])
      (Val.vdict [("b__append", Val.vlist [Val.vint 2])]) = .error () := by
    have hd : applyDeleteStep [("b", Val.vint 1)] [("b__append", Val.vlist [Val.vint 2])] =
        .ok [("b", Val.vint 1)] := by
      simp [applyDeleteStep, show dget [("b__append", Val.vlist [Val.vint 2])] "__delete_keys__" =
        none from by decide]
    have hr : handle_remove_keys [("b", Val.vint 1)] [("b__append", Val.vlist [Val.vint 2])] =
        [("b", Val.vint 1)] := by
      rw [handle_remove_skip _ _ _ (by decide)]
      rfl
    have ha : handle_append_keys [("b", Val.vint 1)] [("b__append", Val.vlist [Val.vint 2])] =
        .error () := by
      rw [handle_append_cons_list _ _ _ (by decide),
        append_one_bad [Val.vint 2] (show dget [("b", Val.vint 1)] (strip8 "b__append") =
          some (Val.vint 1) from by decide) (by decide)]
    exact merge_dict_err_append hd (by rw [hr]; exact ha)
  have hd : applyDeleteStep [("a", Val.vdict [("b", Val.vint 1)])]
      [("a", Val.vdict [("b__append", Val.vlist [Val.vint 2])])] =
      .ok [("a", Val.vdict [("b", Val.vint 1)])] := by
    simp [applyDeleteStep, show dget [("a", Val.vdict [("b__append", Val.vlist [Val.vint 2])])]
      "__delete_keys__" = none from by decide]
  have hr : handle_remove_keys [("a", Val.vdict [("b", Val.vint 1)])]
      [("a", Val.vdict [("b__append", Val.vlist [Val.vint 2])])] =
      [("a", Val.vdict [("b", Val.vint 1)])] := by
    rw [handle_remove_skip _ _ _ (by decide)]
    rfl
  have ha : handle_append_keys [("a", Val.vdict [("b", Val.vint 1)])]
      [("a", Val.vdict [("b__append", Val.vlist [Val.vint 2])])] =
      .ok [("a", Val.vdict [("b", Val.vint 1)])] := by
    rw [handle_append_skip _ _ _ (by decide)]
    rfl
  have hf : remove_false_values [("a", Val.vdict [("b", Val.vint 1)])]
      [("a", Val.vdict [("b__append", Val.vlist [Val.vint 2])])] =
      [("a", Val.vdict [("b", Val.vint 1)])] := by decide
  have hloop : mergeLoop
      (remove_false_values [("a", Val.vdict [("b", Val.vint 1)])]
        [("a", Val.vdict [("b__append", Val.vlist [Val.vint 2])])])
      [("a", Val.vdict [("b__append", Val.vlist [Val.vint 2])])] = .error () := by
    rw [hf]
    exact mergeLoop_step_dict_err _ _ (by decide) (by decide) hinner
  exact merge_dict_err_loop hd (by rw [hr]; exact ha) hloop

theorem delete_cons_cons (es : List (String × Val)) (p q : String) (rest : List String) :
    delete_keys_dotted es (p :: q :: rest) =
      match dget es p with
      | some (Val.vdict sub) => dset es p (Val.vdict (delete_keys_dotted sub (q :: rest)))
      | _ => es := rfl

theorem resolvesB_cons_cons (es : List (String × Val)) (p q : String) (rest : List String) :
    resolvesB (Val.vdict es) (p :: q :: rest) =
      match dget es p with
      | some w => resolvesB w (q :: rest)
      | none => false := rfl

theorem dget_ddel_self {es : List (String × Val)} {p : String}
    (hnd : keysNodup es = true) : dget (ddel es p) p = none := by
  induction es with
  | nil => rfl
  | cons e tl ih =>
      obtain ⟨k', v'⟩ := e
      simp only [keysNodup, Bool.and_eq_true, Bool.not_eq_true'] at hnd
      by_cases hk : k' = p
      · rw [ddel_cons, if_pos hk]
        subst hk
        cases hg : dget tl k' with
        | none => rfl
        | some w =>
            rw [hg] at hnd
            exact absurd hnd.1 (by simp)
      · rw [ddel_cons, if_neg hk, dget_cons, if_neg hk]
        exact ih hnd.2

theorem pyWF_dict_nodup {es : List (String × Val)} (h : pyWF (Val.vdict es) = true) :
    keysNodup es = true := by
  simp only [pyWF, Bool.and_eq_true] at h
  exact h.1

theorem pyWFEntries_mem {es : List (String × Val)} {k : String} {v : Val}
    (h : pyWFEntries es = true) (hm : (k, v) ∈ es) : pyWF v = true := by
  induction es with
  | nil => simp at hm
  | cons e tl ih =>
      obtain ⟨k', v'⟩ := e
      simp only [pyWFEntries, Bool.and_eq_true] at h
      rcases List.mem_cons.mp hm with hm | hm
      · injection hm with hm1 hm2
        subst hm2
        exact h.1
      · exact ih h.2 hm

theorem pyWF_dict_entries {es : List (String × Val)} (h : pyWF (Val.vdict es) = true) :
    pyWFEntries es = true := by
  simp only [pyWF, Bool.and_eq_true] at h
  exact h.2

theorem delete_not_resolved : ∀ (parts : List String) (es : List (String × Val)),
    resolvesB (Val.vdict es) parts = false → delete_keys_dotted es parts = es
  | [], _, _ => rfl
  | [p], es, h => by
      have hg : dget es p = none := by
        have h' : (dget es p).isSome = false := h
        cases hge : dget es p with
        | none => rfl
        | some w => rw [hge] at h'; simp at h'
      show ddel es p = es
      exact ddel_of_none hg
  | p :: q :: rest, es, h => by
      rw [delete_cons_cons]
      rw [resolvesB_cons_cons] at h
      cases hg : dget es p with
      | none => rfl
      | some w =>
          rw [hg] at h
          cases w with
          | vdict sub =>
              show dset es p (Val.vdict (delete_keys_dotted sub (q :: rest))) = es
              have h' : resolvesB (Val.vdict sub) (q :: rest) = false := h
              rw [delete_not_resolved (q :: rest) sub h', dset_self hg]
          | vnull => rfl
          | vbool b => rfl
          | vint n => rfl
          | vstr a => rfl
          | vlist xs => rfl

theorem delete_resolved_getPath : ∀ (parts : List String) (es : List (String × Val)),
    pyWF (Val.vdict es) = true → resolvesB (Val.vdict es) parts = true →
    getPath (Val.vdict (delete_keys_dotted es parts)) parts = none
  | [], es, _, hres => by simp [resolvesB] at hres
  | [p], es, hwf, hres => by
      show getPath (Val.vdict (ddel es p)) [p] = none
      show (match dget (ddel es p) p with
            | some w => getPath w []
            | none => none) = none
      rw [dget_ddel_self (pyWF_dict_nodup hwf)]
  | p :: q :: rest, es, hwf, hres => by
      rw [resolvesB_cons_cons] at hres
      rw [delete_cons_cons]
      cases hg : dget es p with
      | none => rw [hg] at hres; simp at hres
      | some w =>
          rw [hg] at hres
          cases w with
          | vdict sub =>
              show getPath
                (Val.vdict (dset es p (Val.vdict (delete_keys_dotted sub (q :: rest)))))
                (p :: q :: rest) = none
              show (match dget (dset es p (Val.vdict (delete_keys_dotted sub (q :: rest)))) p with
                    | some w => getPath w (q :: rest)
                    | none => none) = none
              rw [dget_dset_self]
              exact delete_resolved_getPath (q :: rest) sub
                (pyWFEntries_mem (pyWF_dict_entries hwf) (dget_mem hg)) hres
          | vnull => simp [resolvesB] at hres
          | vbool b => simp [resolvesB] at hres
          | vint n => simp [resolvesB] at hres
          | vstr a => simp [resolvesB] at hres
          | vlist xs => simp [resolvesB] at hres

/-- Claim C3 (amended).  Dotted deletion walks the merge result one
dot-separated segment at a time, deleting the final segment's key when
every earlier segment resolves to a present nested mapping and silently
skipping otherwise; since the dotted path splits at every dot, a key that
itself contains dots (such as `10.1.1.1`) cannot be addressed — the
spec's example leaves the mapping unchanged, while the same deletion with
a dot-free leaf key (here `n1`) yields `{"bgp": {"neighbors": {}}}`; a
non-existent path leaves the mapping unchanged. -/
theorem claim_c3_deep_delete :
    (∀ (parts : List String) (es : List (String × Val)),
        resolvesB (Val.vdict es) parts = false → delete_keys_dotted es parts = es)
    ∧ (∀ (parts : List String) (es : List (String × Val)),
        pyWF (Val.vdict es) = true → resolvesB (Val.vdict es) parts = true →
        getPath (Val.vdict (delete_keys_dotted es parts)) parts = none)
    ∧ merge_dicts_deep
        (Val.vdict [("bgp", Val.vdict [("neighbors", Val.vdict [("n1", Val.vdict [])])])])
        (Val.vdict [("__delete_keys__", Val.vlist [Val.vstr "bgp.neighbors.n1"])]) =
        .ok (Val.vdict [("bgp", Val.vdict [("neighbors", Val.vdict [])])])
    ∧ merge_dicts_deep
        (Val.vdict [("bgp", Val.vdict [("neighbors", Val.vdict [("n1", Val.vdict [])])])])
        (Val.vdict [("__delete_keys__", Val.vlist [Val.vstr "no.such.path"])]) =
        .ok (Val.vdict [("bgp", Val.vdict [("neighbors", Val.vdict [("n1", Val.vdict [])])])]) := by
  refine ⟨delete_not_resolved, delete_resolved_getPath, ?_, ?_⟩
  · have hd : applyDeleteStep
        [("bgp", Val.vdict [("neighbors", Val.vdict [("n1", Val.vdict [])])])]
        [("__delete_keys__", Val.vlist [Val.vstr "bgp.neighbors.n1"])] =
        .ok [("bgp", Val.vdict [("neighbors", Val.vdict [])])] := by decide
    have ha : handle_append_keys
        (handle_remove_keys [("bgp", Val.vdict [("neighbors", Val.vdict [])])]
          [("__delete_keys__", Val.vlist [Val.vstr "bgp.neighbors.n1"])])
        [("__delete_keys__", Val.vlist [Val.vstr "bgp.neighbors.n1"])] =
        .ok [("bgp", Val.vdict [("neighbors", Val.vdict [])])] := by decide
    have hm : mergeLoop
        (remove_false_values [("bgp", Val.vdict [("neighbors", Val.vdict [])])]
          [("__delete_keys__", Val.vlist [Val.vstr "bgp.neighbors.n1"])])
        [("__delete_keys__", Val.vlist [Val.vstr "bgp.neighbors.n1"])] =
        .ok [("bgp", Val.vdict [("neighbors", Val.vdict [])])] := by
      rw [show remove_false_values [("bgp", Val.vdict [("neighbors", Val.vdict [])])]
          [("__delete_keys__", Val.vlist [Val.vstr "bgp.neighbors.n1"])] =
          [("bgp", Val.vdict [("neighbors", Val.vdict [])])] from by decide]
      rw [mergeLoop_skip _ _ (by decide), mergeLoop]
    exact merge_dict_ok hd ha hm
  · have hd : applyDeleteStep
        [("bgp", Val.vdict [("neighbors", Val.vdict [("n1", Val.vdict [])])])]
        [("__delete_keys__", Val.vlist [Val.vstr "no.such.path"])] =
        .ok [("bgp", Val.vdict [("neighbors", Val.vdict [("n1", Val.vdict [])])])] := by decide
    have ha : handle_append_keys
        (handle_remove_keys [("bgp", Val.vdict [("neighbors", Val.vdict [("n1", Val.vdict [])])])]
          [("__delete_keys__", Val.vlist [Val.vstr "no.such.path"])])
        [("__delete_keys__", Val.vlist [Val.vstr "no.such.path"])] =
        .ok [("bgp", Val.vdict [("neighbors", Val.vdict [("n1", Val.vdict [])])])] := by decide
    have hm : mergeLoop
        (remove_false_values [("bgp", Val.vdict [("neighbors", Val.vdict [("n1", Val.vdict [])])])]
          [("__delete_keys__", Val.vlist [Val.vstr "no.such.path"])])
        [("__delete_keys__", Val.vlist [Val.vstr "no.such.path"])] =
        .ok [("bgp", Val.vdict [("neighbors", Val.vdict [("n1", Val.vdict [])])])] := by
      rw [show remove_false_values
          [("bgp", Val.vdict [("neighbors", Val.vdict [("n1", Val.vdict [])])])]
          [("__delete_keys__", Val.vlist [Val.vstr "no.such.path"])] =
          [("bgp", Val.vdict [("neighbors", Val.vdict [("n1", Val.vdict [])])])] from by decide]
      rw [mergeLoop_skip _ _ (by decide), mergeLoop]
    exact merge_dict_ok hd ha hm

/-- Witness for claim C3's theorem at concrete inputs: a non-resolving
path is skipped silently, and a resolving single-segment path deletes the
key. -/
theorem claim_c3_witness :
    delete_keys_dotted [("a", Val.vint 1)] ["b"] = [("a", Val.vint 1)]
    ∧ getPath (Val.vdict (delete_keys_dotted [("a", Val.vint 1)] ["a"])) ["a"] = none :=
  ⟨claim_c3_deep_delete.1 ["b"] [("a", Val.vint 1)] (by decide),
   claim_c3_deep_delete.2.1 ["a"] [("a", Val.vint 1)] (by decide) (by decide)⟩

/-- Counterexample to claim C3 as stated: the spec's own example
`__delete_keys__: ["bgp.neighbors.10.1.1.1"]` does not delete the
dot-containing neighbour key — the path splits into six segments and the
walk stops at segment `"10"`, so the merge returns the base unchanged
rather than `{"bgp": {"neighbors": {}}}`. -/
theorem claim_c3_counterexample :
    merge_dicts_deep
      (Val.vdict [("bgp", Val.vdict [("neighbors", Val.vdict [("10.1.1.1", Val.vdict [])])])])
      (Val.vdict [("__delete_keys__", Val.vlist [Val.vstr "bgp.neighbors.10.1.1.1"])]) =
      .ok (Val.vdict [("bgp", Val.vdict [("neighbors", Val.vdict [("10.1.1.1", Val.vdict [])])])])
    ∧ Val.vdict [("bgp", Val.vdict [("neighbors", Val.vdict [("10.1.1.1", Val.vdict [])])])] ≠
      Val.vdict [("bgp", Val.vdict [("neighbors", Val.vdict [])])] := by
  constructor
  · have hd : applyDeleteStep
        [("bgp", Val.vdict [("neighbors", Val.vdict [("10.1.1.1", Val.vdict [])])])]
        [("__delete_keys__", Val.vlist [Val.vstr "bgp.neighbors.10.1.1.1"])] =
        .ok [("bgp", Val.vdict [("neighbors", Val.vdict [("10.1.1.1", Val.vdict [])])])] := by
      decide
    have ha : handle_append_keys
        (handle_remove_keys
          [("bgp", Val.vdict [("neighbors", Val.vdict [("10.1.1.1", Val.vdict [])])])]
          [("__delete_keys__", Val.vlist [Val.vstr "bgp.neighbors.10.1.1.1"])])
        [("__delete_keys__", Val.vlist [Val.vstr "bgp.neighbors.10.1.1.1"])] =
        .ok [("bgp", Val.vdict [("neighbors", Val.vdict [("10.1.1.1", Val.vdict [])])])] := by
      decide
    have hm : mergeLoop
        (remove_false_values
          [("bgp", Val.vdict [("neighbors", Val.vdict [("10.1.1.1", Val.vdict [])])])]
          [("__delete_keys__", Val.vlist [Val.vstr "bgp.neighbors.10.1.1.1"])])
        [("__delete_keys__", Val.vlist [Val.vstr "bgp.neighbors.10.1.1.1"])] =
        .ok [("bgp", Val.vdict [("neighbors", Val.vdict [("10.1.1.1", Val.vdict [])])])] := by
      rw [show remove_false_values
          [("bgp", Val.vdict [("neighbors", Val.vdict [("10.1.1.1", Val.vdict [])])])]
          [("__delete_keys__", Val.vlist [Val.vstr "bgp.neighbors.10.1.1.1"])] =
          [("bgp", Val.vdict [("neighbors", Val.vdict [("10.1.1.1", Val.vdict [])])])] from by
        decide]
      rw [mergeLoop_skip _ _ (by decide), mergeLoop]
    exact merge_dict_ok hd ha hm
  · decide

theorem cleanVal_dict_nodup {es : List (String × Val)}
    (h : cleanVal (Val.vdict es) = true) : keysNodup es = true := by
  simp only [cleanVal, Bool.and_eq_true] at h
  exact h.1

theorem cleanVal_dict_entries {es : List (String × Val)}
    (h : cleanVal (Val.vdict es) = true) : cleanEntries es = true := by
  simp only [cleanVal, Bool.and_eq_true] at h
  exact h.2

theorem cleanEntries_mem {es : List (String × Val)} {k : String} {v : Val}
    (h : cleanEntries es = true) (hm : (k, v) ∈ es) :
    isDirective k = false ∧ pyFalse v = false ∧ cleanVal v = true := by
  induction es with
  | nil => simp at hm
  | cons e tl ih =>
      obtain ⟨k', v'⟩ := e
      simp only [cleanEntries, Bool.and_eq_true, Bool.not_eq_true'] at h
      obtain ⟨⟨⟨hd1, hd2⟩, hd3⟩, hd4⟩ := h
      rcases List.mem_cons.mp hm with hm | hm
      · injection hm with hm1 hm2
        subst hm1; subst hm2
        exact ⟨hd1, hd2, hd3⟩
      · exact ih hd4 hm

theorem isDirective_false_parts {k : String} (h : isDirective k = false) :
    (k == "__delete_keys__") = false ∧ strEndsWith k "__remove" = false ∧
      strEndsWith k "__append" = false := by
  simp only [isDirective, Bool.or_eq_false_iff] at h
  exact ⟨h.1.1, h.1.2, h.2⟩

theorem dget_delete_none {oes : List (String × Val)}
    (h : ∀ k v, (k, v) ∈ oes → isDirective k = false) :
    dget oes "__delete_keys__" = none := by
  cases hg : dget oes "__delete_keys__" with
  | none => rfl
  | some dv =>
      have := h _ _ (dget_mem hg)
      simp [isDirective] at this

theorem applyDelete_ok_of_none {res oes : List (String × Val)}
    (h : dget oes "__delete_keys__" = none) : applyDeleteStep res oes = .ok res := by
  simp [applyDeleteStep, h]

theorem handle_remove_id : ∀ (oes t : List (String × Val)),
    (∀ k v, (k, v) ∈ oes → strEndsWith k "__remove" = false) →
    handle_remove_keys t oes = t
  | [], t, _ => rfl
  | (k, v) :: rest, t, h => by
      rw [handle_remove_skip _ _ _ (h k v (List.mem_cons_self _ _))]
      exact handle_remove_id rest t (fun k' v' hm => h k' v' (List.mem_cons_of_mem _ hm))

theorem handle_append_id : ∀ (oes t : List (String × Val)),
    (∀ k v, (k, v) ∈ oes → strEndsWith k "__append" = false) →
    handle_append_keys t oes = .ok t
  | [], t, _ => rfl
  | (k, v) :: rest, t, h => by
      rw [handle_append_skip _ _ _ (h k v (List.mem_cons_self _ _))]
      exact handle_append_id rest t (fun k' v' hm => h k' v' (List.mem_cons_of_mem _ hm))

theorem remove_false_id : ∀ (oes t : List (String × Val)),
    (∀ k v, (k, v) ∈ oes → pyFalse v = false) →
    remove_false_values t oes = t
  | [], t, _ => rfl
  | (k, v) :: rest, t, h => by
      rw [remove_false_cons, h k v (List.mem_cons_self _ _)]
      exact remove_false_id rest t (fun k' v' hm => h k' v' (List.mem_cons_of_mem _ hm))

theorem mergeLoop_self : ∀ (oes es : List (String × Val)),
    (∀ k v, (k, v) ∈ oes → dget es k = some v) →
    (∀ k v, (k, v) ∈ oes → isDirective k = false) →
    (∀ k v, (k, v) ∈ oes → pyFalse v = false) →
    (∀ k sub, (k, Val.vdict sub) ∈ oes →
      merge_dicts_deep (Val.vdict sub) (Val.vdict sub) = .ok (Val.vdict sub)) →
    mergeLoop es oes = .ok es
  | [], es, _, _, _, _ => by rw [mergeLoop]
  | (k, v) :: rest, es, h1, h2, h3, h4 => by
      have hd := h1 k v (List.mem_cons_self _ _)
      have hdir := isDirective_false_parts (h2 k v (List.mem_cons_self _ _))
      have hpf := h3 k v (List.mem_cons_self _ _)
      have hcond : ((k == "__delete_keys__") || strEndsWith k "__remove" ||
          strEndsWith k "__append" || pyFalse v) = false := by
        rw [hdir.1, hdir.2.1, hdir.2.2, hpf]
        rfl
      have htail : mergeLoop es rest = .ok es :=
        mergeLoop_self rest es
          (fun k' v' hm => h1 k' v' (List.mem_cons_of_mem _ hm))
          (fun k' v' hm => h2 k' v' (List.mem_cons_of_mem _ hm))
          (fun k' v' hm => h3 k' v' (List.mem_cons_of_mem _ hm))
          (fun k' sub hm => h4 k' sub (List.mem_cons_of_mem _ hm))
      by_cases hvd : ∃ sub, v = Val.vdict sub
      · obtain ⟨sub, rfl⟩ := hvd
        rw [mergeLoop_step_dict_ok es rest hcond hd (h4 k sub (List.mem_cons_self _ _)),
          dset_self hd]
        exact htail
      · have hv' : ∀ osub, v ≠ Val.vdict osub := fun osub he => hvd ⟨osub, he⟩
        rw [mergeLoop_step_dget_nondict es rest hcond hd hv', dset_self hd]
        exact htail

theorem merge_self_aux : ∀ (n : Nat) (es : List (String × Val)), sizeOf es ≤ n →
    cleanVal (Val.vdict es) = true →
    merge_dicts_deep (Val.vdict es) (Val.vdict es) = .ok (Val.vdict es) := by
  intro n
  induction n with
  | zero =>
      intro es hsz _
      exact absurd hsz (by cases es <;> simp)
  | succ n ihn =>
      intro es hsz hclean
      have hnd := cleanVal_dict_nodup hclean
      have hce := cleanVal_dict_entries hclean
      have h1 : ∀ k v, (k, v) ∈ es → dget es k = some v :=
        fun k v hm => dget_nodup_of_mem hnd hm
      have h2 : ∀ k v, (k, v) ∈ es → isDirective k = false :=
        fun k v hm => (cleanEntries_mem hce hm).1
      have h3 : ∀ k v, (k, v) ∈ es → pyFalse v = false :=
        fun k v hm => (cleanEntries_mem hce hm).2.1
      have h4 : ∀ k sub, (k, Val.vdict sub) ∈ es →
          merge_dicts_deep (Val.vdict sub) (Val.vdict sub) = .ok (Val.vdict sub) := by
        intro k sub hm
        have hsub : cleanVal (Val.vdict sub) = true := (cleanEntries_mem hce hm).2.2
        have ha := List.sizeOf_lt_of_mem hm
        have hb : sizeOf sub < sizeOf (k, Val.vdict sub) := by
          simp
          omega
        exact ihn sub (by omega) hsub
      have hdel : applyDeleteStep es es = .ok es :=
        applyDelete_ok_of_none (dget_delete_none h2)
      have hrem : handle_remove_keys es es = es :=
        handle_remove_id es es (fun k v hm => (isDirective_false_parts (h2 k v hm)).2.1)
      have happ : handle_append_keys es es = .ok es :=
        handle_append_id es es (fun k v hm => (isDirective_false_parts (h2 k v hm)).2.2)
      have hfalse : remove_false_values es es = es := remove_false_id es es h3
      have hml : mergeLoop es es = .ok es := mergeLoop_self es es h1 h2 h3 h4
      exact merge_dict_ok hdel (by rw [hrem]; exact happ) (by rw [hfalse]; exact hml)

/-- Claim C9.  For every mapping X containing, at any depth, no directive
key, no value that is exactly boolean false, and (as any Python dict) no
duplicate keys, merging X with itself returns X unchanged. -/
theorem claim_c9_merge_idempotent (es : List (String × Val))
    (hclean : cleanVal (Val.vdict es) = true) :
    merge_dicts_deep (Val.vdict es) (Val.vdict es) = .ok (Val.vdict es) :=
  merge_self_aux (sizeOf es) es le_rfl hclean

/-- Witness for claim C9's theorem at a concrete nested clean mapping. -/
theorem claim_c9_witness :
    merge_dicts_deep
      (Val.vdict [("a", Val.vint 1), ("b", Val.vdict [("c", Val.vlist [Val.vbool true])])])
      (Val.vdict [("a", Val.vint 1), ("b", Val.vdict [("c", Val.vlist [Val.vbool true])])]) =
      .ok (Val.vdict [("a", Val.vint 1), ("b", Val.vdict [("c", Val.vlist [Val.vbool true])])]) :=
  claim_c9_merge_idempotent
    [("a", Val.vint 1), ("b", Val.vdict [("c", Val.vlist [Val.vbool true])])] (by decide)

theorem keys_delete_dotted : ∀ (parts : List String) (es : List (String × Val)) (k : String),
    k ∈ topKeys (delete_keys_dotted es parts) → k ∈ topKeys es
  | [], _, _, h => h
  | [p], es, k, h => topKeys_ddel_mem h
  | p :: q :: rest, es, k, h => by
      rw [delete_cons_cons] at h
      revert h
      cases hg : dget es p with
      | none => exact id
      | some w =>
          cases w with
          | vdict sub =>
              intro h
              rcases topKeys_dset_mem h with h | h
              · exact h
              · rw [h]
                exact dget_mem_topKeys hg
          | vnull => exact id
          | vbool b => exact id
          | vint n => exact id
          | vstr a => exact id
          | vlist xs => exact id

theorem keys_foldl_delete : ∀ (specs : List (List String)) (es : List (String × Val)) (k : String),
    k ∈ topKeys (specs.foldl (fun r parts => delete_keys_dotted r parts) es) → k ∈ topKeys es
  | [], _, _, h => h
  | parts :: specs, es, k, h => by
      rw [List.foldl_cons] at h
      exact keys_delete_dotted parts es k (keys_foldl_delete specs _ k h)

theorem keys_applyDelete {bes oes r1 : List (String × Val)}
    (h : applyDeleteStep bes oes = .ok r1) :
    ∀ k, k ∈ topKeys r1 → k ∈ topKeys bes := by
  intro k hk
  rw [applyDeleteStep] at h
  cases hg : dget oes "__delete_keys__" with
  | none =>
      rw [hg] at h
      simp at h
      rw [h]
      exact hk
  | some dv =>
      rw [hg] at h
      simp only [] at h
      cases hs : deleteSpecs dv with
      | error e =>
          rw [hs] at h
          simp at h
      | ok specs =>
          rw [hs] at h
          simp at h
          rw [← h] at hk
          exact keys_foldl_delete specs bes k hk

theorem keys_remove_one (t : List (String × Val)) (k : String) (v : Val) :
    ∀ k', k' ∈ topKeys (remove_one t k v) → k' ∈ topKeys t := by
  intro k' hk
  revert hk
  cases v with
  | vbool b =>
      cases b with
      | true => exact fun hk => topKeys_ddel_mem hk
      | false => exact id
  | vlist items =>
      show k' ∈ topKeys (match dget t (strip8 k) with
        | some (Val.vlist bl) =>
            dset t (strip8 k) (Val.vlist (bl.filter (fun x => !(decide (x ∈ items)))))
        | _ => t) → k' ∈ topKeys t
      cases hg : dget t (strip8 k) with
      | none => exact id
      | some w =>
          cases w with
          | vlist bl =>
              intro hk
              rcases topKeys_dset_mem hk with hk | hk
              · exact hk
              · rw [hk]
                exact dget_mem_topKeys hg
          | vnull => exact id
          | vbool b => exact id
          | vint n => exact id
          | vstr a => exact id
          | vdict es => exact id
  | vnull => exact id
  | vint n => exact id
  | vstr a => exact id
  | vdict es => exact id

theorem keys_handle_remove : ∀ (oes t : List (String × Val)) (k : String),
    k ∈ topKeys (handle_remove_keys t oes) → k ∈ topKeys t
  | [], _, _, h => h
  | (kk, vv) :: rest, t, k, h => by
      by_cases hr : strEndsWith kk "__remove" = true
      · rw [handle_remove_step _ _ _ hr] at h
        exact keys_remove_one t kk vv k (keys_handle_remove rest _ k h)
      · rw [handle_remove_skip _ _ _ (by revert hr; cases strEndsWith kk "__remove" <;> simp)] at h
        exact keys_handle_remove rest t k h

theorem keys_handle_append : ∀ (oes t out : List (String × Val)),
    handle_append_keys t oes = .ok out →
    ∀ k, k ∈ topKeys out →
      k ∈ topKeys t ∨ ∃ kk vv, (kk, vv) ∈ oes ∧ strEndsWith kk "__append" = true ∧ k = strip8 kk
  | [], t, out, h, k, hk => by
      injection h with h
      rw [← h] at hk
      exact Or.inl hk
  | (kk, vv) :: rest, t, out, h, k, hk => by
      by_cases ha : strEndsWith kk "__append" = true
      · cases vv with
        | vlist items =>
            revert h
            cases hg : dget t (strip8 kk) with
            | none =>
                rw [handle_append_cons_list _ _ _ ha, append_one_absent items hg]
                intro h
                rcases keys_handle_append rest _ out h k hk with h2 | ⟨kk', vv', hm, he, hs⟩
                · rcases topKeys_dset_mem h2 with h2 | h2
                  · exact Or.inl h2
                  · exact Or.inr ⟨kk, Val.vlist items, List.mem_cons_self _ _, ha, h2⟩
                · exact Or.inr ⟨kk', vv', List.mem_cons_of_mem _ hm, he, hs⟩
            | some w =>
                cases hw : isListV w with
                | true =>
                    obtain ⟨bl, rfl⟩ : ∃ bl, w = Val.vlist bl := by
                      cases w <;> simp [isListV] at hw ⊢
                    rw [handle_append_cons_list _ _ _ ha, append_one_list items hg]
                    intro h
                    rcases keys_handle_append rest _ out h k hk with h2 | ⟨kk', vv', hm, he, hs⟩
                    · rcases topKeys_dset_mem h2 with h2 | h2
                      · exact Or.inl h2
                      · exact Or.inr ⟨kk, Val.vlist items, List.mem_cons_self _ _, ha, h2⟩
                    · exact Or.inr ⟨kk', vv', List.mem_cons_of_mem _ hm, he, hs⟩
                | false =>
                    rw [handle_append_cons_list _ _ _ ha, append_one_bad items hg hw]
                    intro h
                    simp at h
        | vnull =>
            rw [handle_append_cons_bad _ _ ha (by simp [isListV])] at h
            simp at h
        | vbool b =>
            rw [handle_append_cons_bad _ _ ha (by simp [isListV])] at h
            simp at h
        | vint n =>
            rw [handle_append_cons_bad _ _ ha (by simp [isListV])] at h
            simp at h
        | vstr a =>
            rw [handle_append_cons_bad _ _ ha (by simp [isListV])] at h
            simp at h
        | vdict es =>
            rw [handle_append_cons_bad _ _ ha (by simp [isListV])] at h
            simp at h
      · rw [handle_append_skip _ _ _ (by revert ha; cases strEndsWith kk "__append" <;> simp)] at h
        rcases keys_handle_append rest t out h k hk with h2 | ⟨kk', vv', hm, he, hs⟩
        · exact Or.inl h2
        · exact Or.inr ⟨kk', vv', List.mem_cons_of_mem _ hm, he, hs⟩

theorem keys_remove_false : ∀ (oes t : List (String × Val)) (k : String),
    k ∈ topKeys (remove_false_values t oes) → k ∈ topKeys t
  | [], _, _, h => h
  | (kk, vv) :: rest, t, k, h => by
      rw [remove_false_cons] at h
      revert h
      cases hpf : pyFalse vv with
      | true =>
          intro h
          exact topKeys_ddel_mem (keys_remove_false rest (ddel t kk) k h)
      | false =>
          intro h
          exact keys_remove_false rest t k h

theorem skip_false_not_directive {k : String} {v : Val}
    (h : ((k == "__delete_keys__") || strEndsWith k "__remove" || strEndsWith k "__append" || pyFalse v) = false) :
    isDirective k = false := by
  simp only [Bool.or_eq_false_iff] at h
  simp only [isDirective, Bool.or_eq_false_iff]
  exact ⟨⟨h.1.1.1, h.1.1.2⟩, h.1.2⟩

theorem keys_mergeLoop : ∀ (oes res out : List (String × Val)),
    mergeLoop res oes = .ok out →
    ∀ k, k ∈ topKeys out → k ∈ topKeys res ∨ isDirective k = false
  | [], res, out, h, k, hk => by
      rw [mergeLoop] at h
      simp at h
      rw [h]
      exact Or.inl hk
  | (kk, vv) :: rest, res, out, h, k, hk => by
      cases hcond : ((kk == "__delete_keys__") || strEndsWith kk "__remove" ||
          strEndsWith kk "__append" || pyFalse vv) with
      | true =>
          rw [mergeLoop_skip _ _ hcond] at h
          exact keys_mergeLoop rest res out h k hk
      | false =>
          have hdir := skip_false_not_directive hcond
          cases hg : dget res kk with
          | none =>
              rw [mergeLoop_step_dget_none _ _ hcond hg] at h
              rcases keys_mergeLoop rest _ out h k hk with h2 | h2
              · rcases topKeys_dset_mem h2 with h2 | h2
                · exact Or.inl h2
                · rw [h2]
                  exact Or.inr hdir
              · exact Or.inr h2
          | some w =>
              by_cases hwd : ∃ bsub, w = Val.vdict bsub
              · obtain ⟨bsub, rfl⟩ := hwd
                by_cases hvd : ∃ osub, vv = Val.vdict osub
                · obtain ⟨osub, rfl⟩ := hvd
                  cases hm : merge_dicts_deep (Val.vdict bsub) (Val.vdict osub) with
                  | error e =>
                      cases e
                      rw [mergeLoop_step_dict_err _ _ hcond hg hm] at h
                      simp at h
                  | ok m =>
                      rw [mergeLoop_step_dict_ok _ _ hcond hg hm] at h
                      rcases keys_mergeLoop rest _ out h k hk with h2 | h2
                      · rcases topKeys_dset_mem h2 with h2 | h2
                        · exact Or.inl h2
                        · rw [h2]
                          exact Or.inr hdir
                      · exact Or.inr h2
                · have hv' : ∀ osub, vv ≠ Val.vdict osub := fun osub he => hvd ⟨osub, he⟩
                  rw [mergeLoop_step_nested_nondict _ _ hcond hg hv'] at h
                  rcases keys_mergeLoop rest _ out h k hk with h2 | h2
                  · rcases topKeys_dset_mem h2 with h2 | h2
                    · exact Or.inl h2
                    · rw [h2]
                      exact Or.inr hdir
                  · exact Or.inr h2
              · have hw' : ∀ bsub, w ≠ Val.vdict bsub := fun bsub he => hwd ⟨bsub, he⟩
                rw [mergeLoop_step_dget_nondict _ _ hcond hg hw'] at h
                rcases keys_mergeLoop rest _ out h k hk with h2 | h2
                · rcases topKeys_dset_mem h2 with h2 | h2
                  · exact Or.inl h2
                  · rw [h2]
                    exact Or.inr hdir
                · exact Or.inr h2

/-- Claim C2 (amended).  When no top-level key of the base is a directive
key and no `__append` key of the override strips to a directive name, no
top-level key of the merge result is a directive key.  Both hypotheses
are needed: at nested depth an override subtree copied wholesale — where
the base lacks a corresponding mapping — keeps its directive keys, and an
`__append` key whose stripped name is itself a directive name plants that
directive key at top level; see the counterexample for both escapes. -/
theorem claim_c2_directive_isolation (bes oes r5 : List (String × Val))
    (hb : ∀ k, k ∈ topKeys bes → isDirective k = false)
    (ho : ∀ k v, (k, v) ∈ oes → strEndsWith k "__append" = true → isDirective (strip8 k) = false)
    (hmerge : merge_dicts_deep (Val.vdict bes) (Val.vdict oes) = .ok (Val.vdict r5)) :
    ∀ k, k ∈ topKeys r5 → isDirective k = false := by
  intro k hk
  cases hd : applyDeleteStep bes oes with
  | error e =>
      cases e
      rw [merge_dict_err_delete hd] at hmerge
      simp at hmerge
  | ok r1 =>
      cases ha : handle_append_keys (handle_remove_keys r1 oes) oes with
      | error e =>
          cases e
          rw [merge_dict_err_append hd ha] at hmerge
          simp at hmerge
      | ok r3 =>
          cases hm : mergeLoop (remove_false_values r3 oes) oes with
          | error e =>
              cases e
              rw [merge_dict_err_loop hd ha hm] at hmerge
              simp at hmerge
          | ok r5' =>
              rw [merge_dict_ok hd ha hm] at hmerge
              simp only [Except.ok.injEq, Val.vdict.injEq] at hmerge
              rw [← hmerge] at hk
              rcases keys_mergeLoop oes _ r5' hm k hk with h2 | h2
              · have h3 := keys_remove_false oes r3 k h2
                rcases keys_handle_append oes _ r3 ha k h3 with h4 | ⟨kk, vv, hmem, he, hs⟩
                · have h5 := keys_handle_remove oes r1 k h4
                  have h6 := keys_applyDelete hd k h5
                  exact hb k h6
                · rw [hs]
                  exact ho kk vv hmem he
              · exact h2

/-- Witness for claim C2's theorem: a plain merge of directive-free
mappings produces a result whose key "y" is not a directive key. -/
theorem claim_c2_witness : isDirective "y" = false := by
  have hmerge : merge_dicts_deep (Val.vdict [("x", Val.vint 1)]) (Val.vdict [("y", Val.vint 2)]) =
      .ok (Val.vdict [("x", Val.vint 1), ("y", Val.vint 2)]) := by
    have hm : mergeLoop (remove_false_values [("x", Val.vint 1)] [("y", Val.vint 2)])
        [("y", Val.vint 2)] = .ok [("x", Val.vint 1), ("y", Val.vint 2)] := by
      rw [show remove_false_values [("x", Val.vint 1)] [("y", Val.vint 2)] = [("x", Val.vint 1)]
        from by decide]
      rw [mergeLoop_step_dget_none _ _ (by decide) (by decide)]
      rw [show dset [("x", Val.vint 1)] "y" (Val.vint 2) = [("x", Val.vint 1), ("y", Val.vint 2)]
        from by decide]
      rw [mergeLoop]
    have hd : applyDeleteStep [("x", Val.vint 1)] [("y", Val.vint 2)] =
        .ok [("x", Val.vint 1)] := by decide
    have ha : handle_append_keys (handle_remove_keys [("x", Val.vint 1)] [("y", Val.vint 2)])
        [("y", Val.vint 2)] = .ok [("x", Val.vint 1)] := by decide
    exact merge_dict_ok hd ha hm
  exact claim_c2_directive_isolation [("x", Val.vint 1)] [("y", Val.vint 2)]
    [("x", Val.vint 1), ("y", Val.vint 2)]
    (by intro k hk; fin_cases hk; decide)
    (by intro k v hm he; fin_cases hm; decide)
    hmerge "y" (by decide)

/-- Counterexample to claim C2 as stated, showing both escapes: merging
base `{}` with override `{"a": {"b__append": [1]}}` copies the nested
subtree wholesale, so the directive key `b__append` survives at depth one;
and merging base `{}` with override `{"a__remove__append": [1]}` succeeds
with the top-level directive key `a__remove` in the result, because the
append step strips only the `__append` suffix. -/
theorem claim_c2_counterexample :
    (merge_dicts_deep (Val.vdict []) (Val.vdict [("a", Val.vdict [("b__append", Val.vlist [Val.vint 1])])]) =
      .ok (Val.vdict [("a", Val.vdict [("b__append", Val.vlist [Val.vint 1])])])
    ∧ hasDirectiveKey (Val.vdict [("a", Val.vdict [("b__append", Val.vlist [Val.vint 1])])]) = true)
    ∧ merge_dicts_deep (Val.vdict []) (Val.vdict [("a__remove__append", Val.vlist [Val.vint 1])]) =
        .ok (Val.vdict [("a__remove", Val.vlist [Val.vint 1])])
    ∧ isDirective "a__remove" = true := by
  refine ⟨⟨?_, by decide⟩, ?_, by decide⟩
  · have hm : mergeLoop
        (remove_false_values [] [("a", Val.vdict [("b__append", Val.vlist [Val.vint 1])])])
        [("a", Val.vdict [("b__append", Val.vlist [Val.vint 1])])] =
        .ok [("a", Val.vdict [("b__append", Val.vlist [Val.vint 1])])] := by
      rw [show remove_false_values [] [("a", Val.vdict [("b__append", Val.vlist [Val.vint 1])])] =
        ([] : List (String × Val)) from by decide]
      rw [mergeLoop_step_dget_none _ _ (by decide) (by decide)]
      rw [show dset [] "a" (Val.vdict [("b__append", Val.vlist [Val.vint 1])]) =
        [("a", Val.vdict [("b__append", Val.vlist [Val.vint 1])])] from by decide]
      rw [mergeLoop]
    have hd : applyDeleteStep [] [("a", Val.vdict [("b__append", Val.vlist [Val.vint 1])])] =
        .ok [] := by decide
    have ha : handle_append_keys
        (handle_remove_keys [] [("a", Val.vdict [("b__append", Val.vlist [Val.vint 1])])])
        [("a", Val.vdict [("b__append", Val.vlist [Val.vint 1])])] = .ok [] := by decide
    exact merge_dict_ok hd ha hm
  · have hd : applyDeleteStep [] [("a__remove__append", Val.vlist [Val.vint 1])] =
        .ok [] := by decide
    have ha : handle_append_keys
        (handle_remove_keys [] [("a__remove__append", Val.vlist [Val.vint 1])])
        [("a__remove__append", Val.vlist [Val.vint 1])] =
        .ok [("a__remove", Val.vlist [Val.vint 1])] := by decide
    have hm : mergeLoop
        (remove_false_values [("a__remove", Val.vlist [Val.vint 1])]
          [("a__remove__append", Val.vlist [Val.vint 1])])
        [("a__remove__append", Val.vlist [Val.vint 1])] =
        .ok [("a__remove", Val.vlist [Val.vint 1])] := by
      rw [show remove_false_values [("a__remove", Val.vlist [Val.vint 1])]
          [("a__remove__append", Val.vlist [Val.vint 1])] =
          [("a__remove", Val.vlist [Val.vint 1])] from by decide]
      rw [mergeLoop_skip _ _ (by decide), mergeLoop]
    exact merge_dict_ok hd ha hm

theorem process_targets_cons (cfg : Config) (fs : String → FileState) (t : String)
    (ts : List String) :
    process_targets cfg fs (t :: ts) =
      match load_vars_hierarchy cfg fs t with
      | .error e => .error e
      | .ok o =>
          match process_targets cfg fs ts with
          | .error e => .error e
          | .ok os => .ok (o :: os) := rfl

/-- Claim C8 (amended).  A candidate whose content fails to *tokenize*
(`yaml.scanner.ScannerError`, the only exception caught) aborts resolution
for that target only, yielding the skip result `none`, and the
orchestrator's loop then continues with the remaining targets unchanged;
but a candidate failing with any other parse error is an uncaught
exception that kills the whole run. -/
theorem claim_c8_parse_failures :
    (∀ (fs : String → FileState) (acc : Val) (c : String) (rest : List String),
        fs c = .scanError → loadFold fs acc (c :: rest) = .ok none)
    ∧ (∀ (fs : String → FileState) (acc : Val) (c : String) (rest : List String),
        fs c = .parseOtherError → loadFold fs acc (c :: rest) = .error ())
    ∧ (∀ (cfg : Config) (fs : String → FileState) (t : String) (ts : List String),
        load_vars_hierarchy cfg fs t = .ok none →
        process_targets cfg fs (t :: ts) =
          Except.map (fun os => none :: os) (process_targets cfg fs ts)) := by
  refine ⟨?_, ?_, ?_⟩
  · intro fs acc c rest hfs
    rw [loadFold_cons, hfs]
  · intro fs acc c rest hfs
    rw [loadFold_cons, hfs]
  · intro cfg fs t ts hload
    rw [process_targets_cons, hload]
    cases hp : process_targets cfg fs ts with
    | error e => simp [Except.map]
    | ok os => simp [Except.map]

/-- Store for the C8 witness: the root variables file fails to tokenize. -/
def scanErrFS : String → FileState := fun p =>
  if p = "vars.yaml" then FileState.scanError
  else if p = "u.yaml" then FileState.parsed (Val.vdict [("a", Val.vint 1)])
  else FileState.absent

/-- Witness for claim C8's theorem: with a scanner-failing root variables
file, the first target is skipped and the loop continues with the rest. -/
theorem claim_c8_witness :
    process_targets defaultConfig scanErrFS ["t.yaml", "u.yaml"] =
      Except.map (fun os => none :: os) (process_targets defaultConfig scanErrFS ["u.yaml"]) :=
  claim_c8_parse_failures.2.2 defaultConfig scanErrFS "t.yaml" ["u.yaml"]
    (by
      show loadFold scanErrFS (Val.vdict []) (buildCandidates defaultConfig "t.yaml") = .ok none
      rw [show buildCandidates defaultConfig "t.yaml" = ["vars.yaml", "vars.yaml", "t.yaml"]
        from by decide]
      rw [loadFold_cons]
      rfl)

/-- Store for the C8 counterexample: a target's own directory variables
file raises a non-scanner parse error (e.g. `yaml.parser.ParserError` from
content such as `a: [`), which `load_vars_hierarchy` does not catch. -/
def parserErrFS : String → FileState := fun p =>
  if p = "bad/vars.yaml" then FileState.parseOtherError
  else if p = "bad/t.yaml" then FileState.parsed (Val.vdict [("h", Val.vint 1)])
  else if p = "ok.yaml" then FileState.parsed (Val.vdict [("a", Val.vint 1)])
  else FileState.absent

/-- Counterexample to claim C8 as stated: a candidate that exists but
fails to parse with a non-scanner error kills the whole run — the second
target, which on its own resolves fine, is never processed — instead of
aborting only the failing target. -/
theorem claim_c8_counterexample :
    process_targets defaultConfig parserErrFS ["bad/t.yaml", "ok.yaml"] = .error ()
    ∧ process_targets defaultConfig parserErrFS ["ok.yaml"] =
        .ok [some (Val.vdict [("a", Val.vint 1), ("target_type", Val.vstr "ok.yaml")])] := by
  have hbad : load_vars_hierarchy defaultConfig parserErrFS "bad/t.yaml" = .error () := rfl
  have hmerge : merge_dicts_deep (Val.vdict []) (Val.vdict [("a", Val.vint 1)]) =
      .ok (Val.vdict [("a", Val.vint 1)]) := by
    have hm : mergeLoop (remove_false_values [] [("a", Val.vint 1)]) [("a", Val.vint 1)] =
        .ok [("a", Val.vint 1)] := by
      rw [show remove_false_values [] [("a", Val.vint 1)] = ([] : List (String × Val))
        from by decide]
      rw [mergeLoop_step_dget_none _ _ (by decide) (by decide)]
      rw [show dset [] "a" (Val.vint 1) = [("a", Val.vint 1)] from by decide]
      rw [mergeLoop]
    have hd : applyDeleteStep [] [("a", Val.vint 1)] = .ok [] := by decide
    have ha : handle_append_keys (handle_remove_keys [] [("a", Val.vint 1)])
        [("a", Val.vint 1)] = .ok [] := by decide
    exact merge_dict_ok hd ha hm
  have hfold : loadFold parserErrFS (Val.vdict []) (buildCandidates defaultConfig "ok.yaml") =
      .ok (some (Val.vdict [("a", Val.vint 1)])) := by
    rw [show buildCandidates defaultConfig "ok.yaml" = ["vars.yaml", "vars.yaml", "ok.yaml"]
      from by decide]
    show loadFold parserErrFS (Val.vdict []) ["ok.yaml"] = .ok (some (Val.vdict [("a", Val.vint 1)]))
    rw [loadFold_cons]
    show (match merge_dicts_deep (Val.vdict []) (Val.vdict [("a", Val.vint 1)]) with
          | Except.error e => Except.error e
          | Except.ok acc' => loadFold parserErrFS acc' []) =
        .ok (some (Val.vdict [("a", Val.vint 1)]))
    rw [hmerge]
    rfl
  have hok : load_vars_hierarchy defaultConfig parserErrFS "ok.yaml" =
      .ok (some (Val.vdict [("a", Val.vint 1), ("target_type", Val.vstr "ok.yaml")])) := by
    simp only [load_vars_hierarchy, hfold]
    decide
  constructor
  · rw [process_targets_cons, hbad]
  · rw [process_targets_cons, hok]
    rfl

mutual
theorem walkEntries_basename : ∀ (root : String) (t : FTree) (e : String × List String × List String),
    e ∈ walkEntries root t → e.1 = e.2.1.getLastD root
  | root, FTree.node files subs, e => by
      intro h
      rw [walkEntries] at h
      rcases List.mem_cons.mp h with h | h
      · rw [h]
        rfl
      · exact walkForest_basename subs e h root

theorem walkForest_basename : ∀ (subs : List (String × FTree)) (e : String × List String × List String),
    e ∈ walkForest subs → ∀ d : String, e.1 = e.2.1.getLastD d
  | [], e => by
      intro h
      rw [walkForest] at h
      simp at h
  | (nm, sub) :: rest, e => by
      intro h d
      rw [walkForest] at h
      rcases List.mem_append.mp h with h | h
      · obtain ⟨e', he', heq⟩ := List.mem_map.mp h
        have hb := walkEntries_basename nm sub e' he'
        rw [← heq]
        show e'.1 = (nm :: e'.2.1).getLastD d
        rw [List.getLastD_cons]
        exact hb
      · exact walkForest_basename rest e h d
end

theorem filterMap_congr' {α β : Type} (f g : α → Option β) :
    ∀ (l : List α), (∀ a ∈ l, f a = g a) → l.filterMap f = l.filterMap g
  | [], _ => rfl
  | a :: l, h => by
      rw [List.filterMap_cons, List.filterMap_cons, h a (List.mem_cons_self _ _),
        filterMap_congr' f g l (fun a' ha' => h a' (List.mem_cons_of_mem _ ha'))]

theorem flatMap_congr' {α β : Type} (f g : α → List β) :
    ∀ (l : List α), (∀ a ∈ l, f a = g a) → l.flatMap f = l.flatMap g
  | [], _ => rfl
  | a :: l, h => by
      rw [List.flatMap_cons, List.flatMap_cons, h a (List.mem_cons_self _ _),
        flatMap_congr' f g l (fun a' ha' => h a' (List.mem_cons_of_mem _ ha'))]

/-- Claim C7 (amended).  The walk selects exactly the files with extension
`.yaml` (a `.yml` file is skipped), whose name is neither the variables
filename nor the override-config filename, whose own name does not start
with the skip prefix, and whose immediate directory's basename — the walk
root's own basename included — does not start with the skip prefix;
ancestor directories above the immediate one are not checked, so files in
subdirectories of a skipped directory are still selected. -/
theorem claim_c7_selection (cfg : Config) (rootName : String) (t : FTree) :
    find_target_yaml_files cfg rootName t = amendedSelected cfg rootName t := by
  rw [find_target_yaml_files, amendedSelected]
  apply flatMap_congr'
  intro e he
  have hb := walkEntries_basename rootName t e he
  rw [hb]
  by_cases hs : path_should_be_skipped cfg (e.2.1.getLastD rootName) = true
  · rw [if_pos hs]
    have hnil : ∀ f ∈ e.2.2,
        (if !path_should_be_skipped cfg (e.2.1.getLastD rootName)
            && !path_should_be_skipped cfg f
            && strEndsWith f ".yaml"
            && !(f == cfg.vars_filename || f == cfg.config_filename)
         then some (e.2.1, f) else none) = none := by
      intro f _
      rw [hs]
      rfl
    rw [List.filterMap_eq_nil_iff.mpr hnil]
  · have hs' : path_should_be_skipped cfg (e.2.1.getLastD rootName) = false := by
      revert hs
      cases path_should_be_skipped cfg (e.2.1.getLastD rootName) <;> simp
    rw [if_neg hs]
    apply filterMap_congr'
    intro f _
    rw [hs']
    cases h1 : path_should_be_skipped cfg f <;>
      cases h2 : strEndsWith f ".yaml" <;>
        cases h3 : (f == cfg.vars_filename || f == cfg.config_filename) <;>
          rfl

/-- Witness for claim C7's theorem at a concrete tree. -/
theorem claim_c7_witness :
    find_target_yaml_files defaultConfig "input" (FTree.node ["a.yaml"] []) =
      amendedSelected defaultConfig "input" (FTree.node ["a.yaml"] []) :=
  claim_c7_selection defaultConfig "input" (FTree.node ["a.yaml"] [])

/-- Counterexample to claim C7 as stated: a `.yml` file is claimed
selected but the source only selects `.yaml` files (`file.endswith(".yaml")`,
main.py:56). -/
theorem claim_c7_counterexample :
    find_target_yaml_files defaultConfig "input" (FTree.node ["x.yml"] []) = []
    ∧ claimSelected defaultConfig "input" (FTree.node ["x.yml"] []) = [([], "x.yml")]
    ∧ find_target_yaml_files defaultConfig "input" (FTree.node ["x.yml"] []) ≠
        claimSelected defaultConfig "input" (FTree.node ["x.yml"] []) := by
  refine ⟨by decide, by decide, ?_⟩
  intro h
  rw [show find_target_yaml_files defaultConfig "input" (FTree.node ["x.yml"] []) =
    ([] : List (List String × String)) from by decide] at h
  rw [show claimSelected defaultConfig "input" (FTree.node ["x.yml"] []) =
    [(([] : List String), "x.yml")] from by decide] at h
  simp at h

theorem splitOnChar_no_sep {c : Char} : ∀ {l : List Char}, c ∉ l → splitOnChar c l = [l]
  | [], _ => rfl
  | x :: rest, h => by
      simp only [List.mem_cons, not_or] at h
      rw [splitOnChar, if_neg (fun hh => h.1 hh.symm)]
      rw [splitOnChar_no_sep h.2]

theorem splitOnChar_sep_append {c : Char} : ∀ {d : List Char} (t : List Char), c ∉ d →
    splitOnChar c (d ++ c :: t) = d :: splitOnChar c t
  | [], t, _ => by
      rw [List.nil_append, splitOnChar, if_pos rfl]
  | x :: d, t, h => by
      simp only [List.mem_cons, not_or] at h
      rw [List.cons_append, splitOnChar, if_neg (fun hh => h.1 hh.symm)]
      rw [splitOnChar_sep_append t h.2]

theorem splitOnChar_joinSlash : ∀ (ds : List (List Char)), ds ≠ [] →
    (∀ d ∈ ds, '/' ∉ d) → splitOnChar '/' (joinSlash ds) = ds
  | [], h, _ => absurd rfl h
  | [d], _, hd => by
      rw [joinSlash, splitOnChar_no_sep (hd d (List.mem_singleton_self d))]
  | d :: d2 :: rest, _, hd => by
      rw [joinSlash, splitOnChar_sep_append _ (hd d (List.mem_cons_self _ _))]
      rw [splitOnChar_joinSlash (d2 :: rest) (by simp)
        (fun d' hd' => hd d' (List.mem_cons_of_mem _ hd'))]

theorem joinSlash_concat : ∀ (ds : List (List Char)) (f : List Char), ds ≠ [] →
    joinSlash (ds ++ [f]) = joinSlash ds ++ '/' :: f
  | [], _, h => absurd rfl h
  | [d], f, _ => by
      rw [List.singleton_append, joinSlash, joinSlash]
      rfl
  | d :: d2 :: rest, f, _ => by
      have ih := joinSlash_concat (d2 :: rest) f (by simp)
      show d ++ '/' :: joinSlash (d2 :: (rest ++ [f])) =
        (d ++ '/' :: joinSlash (d2 :: rest)) ++ '/' :: f
      rw [show joinSlash (d2 :: (rest ++ [f])) = joinSlash (d2 :: rest) ++ '/' :: f from ih]
      simp

theorem mem_joinSlash : ∀ (ds : List (List Char)) (c : Char), c ∈ joinSlash ds →
    c = '/' ∨ ∃ d ∈ ds, c ∈ d
  | [], c, h => by simp [joinSlash] at h
  | [d], c, h => by
      rw [joinSlash] at h
      exact Or.inr ⟨d, List.mem_singleton_self d, h⟩
  | d :: d2 :: rest, c, h => by
      rw [joinSlash] at h
      rcases List.mem_append.mp h with h | h
      · exact Or.inr ⟨d, List.mem_cons_self _ _, h⟩
      · rcases List.mem_cons.mp h with h | h
        · exact Or.inl h
        · rcases mem_joinSlash (d2 :: rest) c h with h | ⟨d', hd', hc⟩
          · exact Or.inl h
          · exact Or.inr ⟨d', List.mem_cons_of_mem _ hd', hc⟩

theorem dropWhile_append_all {p : Char → Bool} : ∀ {a : List Char} (b : List Char),
    (∀ x ∈ a, p x = true) → (a ++ b).dropWhile p = b.dropWhile p
  | [], _, _ => rfl
  | x :: a, b, h => by
      rw [List.cons_append, List.dropWhile_cons, if_pos (h x (List.mem_cons_self _ _))]
      exact dropWhile_append_all b (fun x' hx' => h x' (List.mem_cons_of_mem _ hx'))

theorem joinSlash_head_mem : ∀ (d : List (List Char)) (d0 : List Char) (c : Char),
    c ∈ d0 → c ∈ joinSlash (d0 :: d)
  | [], d0, c, h => h
  | d1 :: rest, d0, c, h => by
      rw [joinSlash]
      exact List.mem_append_left _ h

theorem joinSlash_last_rev : ∀ (ds : List (List Char)), ds ≠ [] →
    (∀ d ∈ ds, d ≠ [] ∧ '/' ∉ d) →
    ∃ c t, (joinSlash ds).reverse = c :: t ∧ ¬(c == '/') = true := by
  intro ds hne hd
  rcases List.eq_nil_or_concat' ds with h | ⟨ds', dl, h⟩
  · exact absurd h hne
  · subst h
    have hdl := hd dl (by simp)
    obtain ⟨c, t', hct⟩ : ∃ c t', dl.reverse = c :: t' := by
      cases hrev : dl.reverse with
      | nil =>
          have : dl = [] := by
            have := congrArg List.reverse hrev
            simpa using this
          exact absurd this hdl.1
      | cons c t' => exact ⟨c, t', rfl⟩
    have hc : c ∈ dl := by
      have : c ∈ dl.reverse := by rw [hct]; exact List.mem_cons_self _ _
      simpa using this
    have hcs : ¬(c == '/') = true := by
      simp only [beq_iff_eq]
      intro he
      rw [he] at hc
      exact hdl.2 hc
    rcases eq_or_ne ds' [] with hds' | hds'
    · subst hds'
      rw [List.nil_append, joinSlash, hct]
      exact ⟨c, t', rfl, hcs⟩
    · rw [joinSlash_concat ds' dl hds']
      exact ⟨c, (t' ++ ['/']) ++ (joinSlash ds').reverse, by
        rw [List.reverse_append, List.reverse_cons, hct]
        simp, hcs⟩

theorem dirnameCore_join (ds : List (List Char)) (f : List Char)
    (hne : ds ≠ []) (hd : ∀ d ∈ ds, d ≠ [] ∧ '/' ∉ d) (hf : '/' ∉ f) :
    dirnameCore (joinSlash ds ++ '/' :: f) = joinSlash ds := by
  have hfall : ∀ x ∈ f.reverse, (fun c => !(c == '/')) x = true := by
    intro x hx
    simp only [List.mem_reverse] at hx
    simp only [Bool.not_eq_true']
    exact beq_false_of_ne (fun he => hf (he ▸ hx))
  have hdrop : ((joinSlash ds ++ '/' :: f).reverse.dropWhile (fun c => !(c == '/'))).reverse =
      joinSlash ds ++ ['/'] := by
    rw [show (joinSlash ds ++ '/' :: f).reverse = f.reverse ++ '/' :: (joinSlash ds).reverse
      from by simp]
    rw [dropWhile_append_all _ hfall, List.dropWhile_cons, if_neg (by simp), List.reverse_cons]
    simp
  obtain ⟨d0, rest0, hds0⟩ : ∃ d0 rest0, ds = d0 :: rest0 := by
    cases ds with
    | nil => exact absurd rfl hne
    | cons d0 rest0 => exact ⟨d0, rest0, rfl⟩
  have hd0 := hd d0 (by rw [hds0]; exact List.mem_cons_self _ _)
  obtain ⟨c0, t0, hc0t⟩ : ∃ c0 t0, d0 = c0 :: t0 := by
    cases d0 with
    | nil => exact absurd rfl hd0.1
    | cons c0 t0 => exact ⟨c0, t0, rfl⟩
  have hc0I : c0 ∈ joinSlash ds := by
    rw [hds0]
    exact joinSlash_head_mem rest0 d0 c0 (by rw [hc0t]; exact List.mem_cons_self _ _)
  have hc0 : ¬(c0 == '/') = true := by
    simp only [beq_iff_eq]
    intro he
    have hin : c0 ∈ d0 := by rw [hc0t]; exact List.mem_cons_self _ _
    rw [he] at hin
    exact hd0.2 hin
  have hallfalse : (joinSlash ds ++ ['/']).all (fun c => c == '/') = false :=
    List.all_eq_false.mpr ⟨c0, List.mem_append_left _ hc0I, hc0⟩
  obtain ⟨cl, tl', hIrev, hcl⟩ := joinSlash_last_rev ds hne hd
  have helse : (((joinSlash ds ++ ['/']).reverse.dropWhile (fun c => c == '/'))).reverse =
      joinSlash ds := by
    rw [List.reverse_append, show (['/'] : List Char).reverse = ['/'] from rfl,
      List.singleton_append, List.dropWhile_cons, if_pos (by simp)]
    rw [hIrev, List.dropWhile_cons, if_neg hcl, ← hIrev]
    simp
  simp only [dirnameCore]
  rw [hdrop, hallfalse]
  rw [if_neg (by simp)]
  exact helse

theorem path_parts_join (dirs : List String) (fname : String)
    (hne : dirs ≠ []) (hd : ∀ d ∈ dirs, d.data ≠ [] ∧ '/' ∉ d.data ∧ '\\' ∉ d.data)
    (hf1 : fname.data ≠ []) (hf2 : '/' ∉ fname.data) :
    path_parts (ospJoin (dirs ++ [fname])) = dirs := by
  have hfilter : (((dirs ++ [fname]).map String.data).filter (fun s => !s.isEmpty)) =
      (dirs.map String.data) ++ [fname.data] := by
    rw [List.map_append]
    apply List.filter_eq_self.mpr
    intro a ha
    rcases List.mem_append.mp ha with ha | ha
    · obtain ⟨d, hdm, rfl⟩ := List.mem_map.mp ha
      simp only [Bool.not_eq_true']
      rw [← Bool.not_eq_true, List.isEmpty_iff]
      exact (hd d hdm).1
    · simp only [List.map_cons, List.map_nil, List.mem_singleton] at ha
      rw [ha]
      simp only [Bool.not_eq_true']
      rw [← Bool.not_eq_true, List.isEmpty_iff]
      exact hf1
  have hdsne : dirs.map String.data ≠ [] := by
    simp only [ne_eq, List.map_eq_nil_iff]
    exact hne
  have hdprops : ∀ d ∈ dirs.map String.data, d ≠ [] ∧ '/' ∉ d := by
    intro d hdm
    obtain ⟨d', hm', rfl⟩ := List.mem_map.mp hdm
    exact ⟨(hd d' hm').1, (hd d' hm').2.1⟩
  have hdirname : dirnameCore (ospJoin (dirs ++ [fname])).data =
      joinSlash (dirs.map String.data) := by
    show dirnameCore (joinSlash (((dirs ++ [fname]).map String.data).filter (fun s => !s.isEmpty))) = _
    rw [hfilter, joinSlash_concat _ _ hdsne]
    exact dirnameCore_join _ _ hdsne hdprops hf2
  have hnb : '\\' ∉ joinSlash (dirs.map String.data) := by
    intro hmem
    rcases mem_joinSlash _ _ hmem with h | ⟨d, hdm, hc⟩
    · exact absurd h (by decide)
    · obtain ⟨d', hm', rfl⟩ := List.mem_map.mp hdm
      exact (hd d' hm').2.2 hc
  rw [path_parts]
  rw [show (posixDirname (ospJoin (dirs ++ [fname]))).data =
    dirnameCore (ospJoin (dirs ++ [fname])).data from rfl]
  rw [hdirname, replaceBS_id hnb,
    splitOnChar_joinSlash _ hdsne (fun d hdm => (hdprops d hdm).2), List.map_map]
  have hmk : (String.mk ∘ String.data) = id := funext (fun s => rfl)
  rw [hmk, List.map_id]

theorem merge_simple_add {es : List (String × Val)} {k : String} {v : Val}
    (hdir : isDirective k = false) (hpf : pyFalse v = false) (hg : dget es k = none) :
    merge_dicts_deep (Val.vdict es) (Val.vdict [(k, v)]) = .ok (Val.vdict (dset es k v)) := by
  have hparts := isDirective_false_parts hdir
  have hmemone : ∀ k' v', (k', v') ∈ [(k, v)] → isDirective k' = false := by
    intro k' v' hm
    simp only [List.mem_singleton] at hm
    injection hm with h1 h2
    rw [h1]
    exact hdir
  have hd : applyDeleteStep es [(k, v)] = .ok es :=
    applyDelete_ok_of_none (dget_delete_none hmemone)
  have hr : handle_remove_keys es [(k, v)] = es :=
    handle_remove_id _ _ (fun k' v' hm => (isDirective_false_parts (hmemone k' v' hm)).2.1)
  have ha : handle_append_keys es [(k, v)] = .ok es :=
    handle_append_id _ _ (fun k' v' hm => (isDirective_false_parts (hmemone k' v' hm)).2.2)
  have hf : remove_false_values es [(k, v)] = es :=
    remove_false_id _ _ (by
      intro k' v' hm
      simp only [List.mem_singleton] at hm
      injection hm with h1 h2
      rw [h2]
      exact hpf)
  have hm : mergeLoop es [(k, v)] = .ok (dset es k v) := by
    rw [mergeLoop_step_dget_none _ _ (by rw [hparts.1, hparts.2.1, hparts.2.2, hpf]; rfl) hg,
      mergeLoop]
  exact merge_dict_ok hd (by rw [hr]; exact ha) (by rw [hf]; exact hm)

/-- Claim C1 (amended).  For a target whose relative path has at least one
directory segment, the hierarchy builds exactly n + 2 candidates — the
variables file under the first i segments for i in 0..n (root first,
shallow to deep), then the target itself; and the spec's end-to-end
scenario resolves to exactly the claimed mapping.  (For a root-level
target the code builds three candidates, visiting the root variables file
twice — see the counterexample.) -/
theorem claim_c1_hierarchy :
    (∀ (dirs : List String) (fname : String),
      dirs ≠ [] →
      (∀ d ∈ dirs, d.data ≠ [] ∧ '/' ∉ d.data ∧ '\\' ∉ d.data) →
      fname.data ≠ [] → '/' ∉ fname.data →
      buildCandidates defaultConfig (ospJoin (dirs ++ [fname])) =
        specCandidates defaultConfig dirs (ospJoin (dirs ++ [fname]))
      ∧ (buildCandidates defaultConfig (ospJoin (dirs ++ [fname]))).length = dirs.length + 2)
    ∧ load_vars_hierarchy defaultConfig exampleFS "ios/r1.yaml" =
        .ok (some (Val.vdict [("mtu", Val.vint 1500), ("vendor", Val.vstr "cisco"),
          ("hostname", Val.vstr "r1"), ("target_type", Val.vstr "ios")])) := by
  constructor
  · intro dirs fname hne hd hf1 hf2
    have hp := path_parts_join dirs fname hne hd hf1 hf2
    constructor
    · rw [buildCandidates, specCandidates, hp]
    · rw [buildCandidates, hp]
      simp
  · have m1 : merge_dicts_deep (Val.vdict []) (Val.vdict [("mtu", Val.vint 1500)]) =
        .ok (Val.vdict [("mtu", Val.vint 1500)]) := by
      rw [merge_simple_add (by decide) (by decide) (by decide)]
      rfl
    have m2 : merge_dicts_deep (Val.vdict [("mtu", Val.vint 1500)])
        (Val.vdict [("vendor", Val.vstr "cisco")]) =
        .ok (Val.vdict [("mtu", Val.vint 1500), ("vendor", Val.vstr "cisco")]) := by
      rw [merge_simple_add (by decide) (by decide) (by decide)]
      rfl
    have m3 : merge_dicts_deep (Val.vdict [("mtu", Val.vint 1500), ("vendor", Val.vstr "cisco")])
        (Val.vdict [("hostname", Val.vstr "r1")]) =
        .ok (Val.vdict [("mtu", Val.vint 1500), ("vendor", Val.vstr "cisco"),
          ("hostname", Val.vstr "r1")]) := by
      rw [merge_simple_add (by decide) (by decide) (by decide)]
      rfl
    have hfold : loadFold exampleFS (Val.vdict [])
        (buildCandidates defaultConfig "ios/r1.yaml") =
        .ok (some (Val.vdict [("mtu", Val.vint 1500), ("vendor", Val.vstr "cisco"),
          ("hostname", Val.vstr "r1")])) := by
      rw [show buildCandidates defaultConfig "ios/r1.yaml" =
        ["vars.yaml", "ios/vars.yaml", "ios/r1.yaml"] from by decide]
      rw [loadFold_cons]
      show (match merge_dicts_deep (Val.vdict []) (Val.vdict [("mtu", Val.vint 1500)]) with
            | Except.error e => Except.error e
            | Except.ok acc' => loadFold exampleFS acc' ["ios/vars.yaml", "ios/r1.yaml"]) = _
      rw [m1]
      show loadFold exampleFS (Val.vdict [("mtu", Val.vint 1500)])
        ["ios/vars.yaml", "ios/r1.yaml"] = _
      rw [loadFold_cons]
      show (match merge_dicts_deep (Val.vdict [("mtu", Val.vint 1500)])
              (Val.vdict [("vendor", Val.vstr "cisco")]) with
            | Except.error e => Except.error e
            | Except.ok acc' => loadFold exampleFS acc' ["ios/r1.yaml"]) = _
      rw [m2]
      show loadFold exampleFS
        (Val.vdict [("mtu", Val.vint 1500), ("vendor", Val.vstr "cisco")]) ["ios/r1.yaml"] = _
      rw [loadFold_cons]
      show (match merge_dicts_deep
              (Val.vdict [("mtu", Val.vint 1500), ("vendor", Val.vstr "cisco")])
              (Val.vdict [("hostname", Val.vstr "r1")]) with
            | Except.error e => Except.error e
            | Except.ok acc' => loadFold exampleFS acc' []) = _
      rw [m3]
      rfl
    simp only [load_vars_hierarchy, hfold]
    decide

theorem claim_c1_witness :
    (buildCandidates defaultConfig (ospJoin (["ios"] ++ ["r1.yaml"])) =
        specCandidates defaultConfig ["ios"] (ospJoin (["ios"] ++ ["r1.yaml"]))
      ∧ (buildCandidates defaultConfig (ospJoin (["ios"] ++ ["r1.yaml"]))).length =
          (["ios"] : List String).length + 2)
    ∧ load_vars_hierarchy defaultConfig exampleFS "ios/r1.yaml" =
        .ok (some (Val.vdict [("mtu", Val.vint 1500), ("vendor", Val.vstr "cisco"),
          ("hostname", Val.vstr "r1"), ("target_type", Val.vstr "ios")])) :=
  ⟨claim_c1_hierarchy.1 ["ios"] "r1.yaml" (by decide)
      (by
        intro d hd
        simp only [List.mem_singleton] at hd
        rw [hd]
        exact ⟨by decide, by decide, by decide⟩)
      (by decide) (by decide),
    claim_c1_hierarchy.2⟩

theorem claim_c1_counterexample :
    buildCandidates defaultConfig "r1.yaml" = ["vars.yaml", "vars.yaml", "r1.yaml"]
    ∧ (buildCandidates defaultConfig "r1.yaml").length ≠ 0 + 2
    ∧ load_vars_hierarchy defaultConfig fsDouble "r1.yaml" =
        .ok (some (Val.vdict [("a", Val.vlist [Val.vint 1, Val.vint 1]),
          ("target_type", Val.vstr "r1.yaml")])) := by
  refine ⟨by decide, by decide, ?_⟩
  have m1 : merge_dicts_deep (Val.vdict [])
      (Val.vdict [("a__append", Val.vlist [Val.vint 1])]) =
      .ok (Val.vdict [("a", Val.vlist [Val.vint 1])]) := by
    have hd : applyDeleteStep [] [("a__append", Val.vlist [Val.vint 1])] = .ok [] := by decide
    have ha : handle_append_keys
        (handle_remove_keys [] [("a__append", Val.vlist [Val.vint 1])])
        [("a__append", Val.vlist [Val.vint 1])] =
        .ok [("a", Val.vlist [Val.vint 1])] := by decide
    have hm : mergeLoop
        (remove_false_values [("a", Val.vlist [Val.vint 1])]
          [("a__append", Val.vlist [Val.vint 1])])
        [("a__append", Val.vlist [Val.vint 1])] = .ok [("a", Val.vlist [Val.vint 1])] := by
      rw [show remove_false_values [("a", Val.vlist [Val.vint 1])]
          [("a__append", Val.vlist [Val.vint 1])] = [("a", Val.vlist [Val.vint 1])] from by decide]
      rw [mergeLoop_skip _ _ (by decide), mergeLoop]
    exact merge_dict_ok hd ha hm
  have m2 : merge_dicts_deep (Val.vdict [("a", Val.vlist [Val.vint 1])])
      (Val.vdict [("a__append", Val.vlist [Val.vint 1])]) =
      .ok (Val.vdict [("a", Val.vlist [Val.vint 1, Val.vint 1])]) := by
    have hd : applyDeleteStep [("a", Val.vlist [Val.vint 1])]
        [("a__append", Val.vlist [Val.vint 1])] = .ok [("a", Val.vlist [Val.vint 1])] := by decide
    have ha : handle_append_keys
        (handle_remove_keys [("a", Val.vlist [Val.vint 1])]
          [("a__append", Val.vlist [Val.vint 1])])
        [("a__append", Val.vlist [Val.vint 1])] =
        .ok [("a", Val.vlist [Val.vint 1, Val.vint 1])] := by decide
    have hm : mergeLoop
        (remove_false_values [("a", Val.vlist [Val.vint 1, Val.vint 1])]
          [("a__append", Val.vlist [Val.vint 1])])
        [("a__append", Val.vlist [Val.vint 1])] =
        .ok [("a", Val.vlist [Val.vint 1, Val.vint 1])] := by
      rw [show remove_false_values [("a", Val.vlist [Val.vint 1, Val.vint 1])]
          [("a__append", Val.vlist [Val.vint 1])] =
          [("a", Val.vlist [Val.vint 1, Val.vint 1])] from by decide]
      rw [mergeLoop_skip _ _ (by decide), mergeLoop]
    exact merge_dict_ok hd ha hm
  have hfold : loadFold fsDouble (Val.vdict [])
      (buildCandidates defaultConfig "r1.yaml") =
      .ok (some (Val.vdict [("a", Val.vlist [Val.vint 1, Val.vint 1])])) := by
    rw [show buildCandidates defaultConfig "r1.yaml" =
      ["vars.yaml", "vars.yaml", "r1.yaml"] from by decide]
    rw [loadFold_cons]
    show (match merge_dicts_deep (Val.vdict [])
            (Val.vdict [("a__append", Val.vlist [Val.vint 1])]) with
          | Except.error e => Except.error e
          | Except.ok acc' => loadFold fsDouble acc' ["vars.yaml", "r1.yaml"]) = _
    rw [m1]
    show loadFold fsDouble (Val.vdict [("a", Val.vlist [Val.vint 1])])
      ["vars.yaml", "r1.yaml"] = _
    rw [loadFold_cons]
    show (match merge_dicts_deep (Val.vdict [("a", Val.vlist [Val.vint 1])])
            (Val.vdict [("a__append", Val.vlist [Val.vint 1])]) with
          | Except.error e => Except.error e
          | Except.ok acc' => loadFold fsDouble acc' ["r1.yaml"]) = _
    rw [m2]
    show loadFold fsDouble (Val.vdict [("a", Val.vlist [Val.vint 1, Val.vint 1])])
      ["r1.yaml"] = _
    rw [loadFold_cons]
    show (match merge_dicts_deep (Val.vdict [("a", Val.vlist [Val.vint 1, Val.vint 1])])
            (Val.vdict []) with
          | Except.error e => Except.error e
          | Except.ok acc' => loadFold fsDouble acc' []) = _
    rw [merge_empty_override]
    rfl
  simp only [load_vars_hierarchy, hfold]
  decide
